import Mathlib

/-!
Verification of the Mathdoku OCR pipeline (`src/ocr/ocr_mathdoku.py`).

This file gives a shallow embedding of the pure / deterministic parts of the
pipeline and proves, or refutes, the frozen claims about it.  Image-dependent
operations (the OCR engine, pixel crops) are modelled as oracle inputs; every
piece of control flow and arithmetic is translated from the Python source.
Python floats are modelled by exact rationals; the concrete counterexamples
below only involve values on which float arithmetic is exact.
-/

namespace MathdokuOCR

/-- A grid cell `(r, c)`, as used by `_group_cages` and friends. -/
abbrev Cell : Type := Nat × Nat

/-- Row-major (Python tuple) order on cells: `(r1,c1) ≤ (r2,c2)` iff
`r1 < r2` or (`r1 = r2` and `c1 ≤ c2`). -/
def rmLe (a b : Cell) : Prop :=
  a.1 < b.1 ∨ (a.1 = b.1 ∧ a.2 ≤ b.2)

/-- Strict row-major order. -/
def rmLt (a b : Cell) : Prop :=
  a.1 < b.1 ∨ (a.1 = b.1 ∧ a.2 < b.2)

instance : DecidableRel rmLe := fun a b => by unfold rmLe; infer_instance

instance : DecidableRel rmLt := fun a b => by unfold rmLt; infer_instance

instance : IsTotal Cell rmLe :=
  ⟨fun a b => by
    unfold rmLe
    rcases Nat.lt_trichotomy a.1 b.1 with h | h | h
    · exact Or.inl (Or.inl h)
    · rcases Nat.le_total a.2 b.2 with h2 | h2
      · exact Or.inl (Or.inr ⟨h, h2⟩)
      · exact Or.inr (Or.inr ⟨h.symm, h2⟩)
    · exact Or.inr (Or.inl h)⟩

instance : IsTrans Cell rmLe :=
  ⟨fun a b c hab hbc => by
    unfold rmLe at *
    rcases hab with h1 | ⟨h1, h1'⟩ <;> rcases hbc with h2 | ⟨h2, h2'⟩
    · exact Or.inl (h1.trans h2)
    · exact Or.inl (h2 ▸ h1)
    · exact Or.inl (h1 ▸ h2)
    · exact Or.inr ⟨h1.trans h2, h1'.trans h2'⟩⟩

/-! ### Union-find (`_group_cages`, lines 327-358)

The Python `find` is a while-loop with path halving
(`parent[x] = parent[parent[x]]; x = parent[x]`); we embed it with an
explicit fuel parameter, `none` marking fuel exhaustion (which we prove
never happens for the fuel the caller passes).  The parent dict, keyed by
exactly the `n * n` cells and initialised to the identity, is embedded as a
total function that is the identity off the grid. -/

/-- Parent map of the union-find structure. -/
abbrev PMap : Type := Cell → Cell

/-- Point update of a parent map (`parent[x] = v`). -/
def pupd (p : PMap) (x v : Cell) : PMap :=
  fun y => if y = x then v else p y

/-- `find` with path halving, fuelled.  Mirrors:
`while parent[x] != x: parent[x] = parent[parent[x]]; x = parent[x]`. -/
def findAux : Nat → PMap → Cell → Option (PMap × Cell)
  | 0, _, _ => none
  | fuel + 1, p, x =>
      if p x = x then some (p, x)
      else findAux fuel (pupd p x (p (p x))) (p (p x))

/-- `union(a, b)`: find both roots, attach `b`'s root under `a`'s. -/
def unionUF (fuel : Nat) (p : PMap) (a b : Cell) : Option PMap :=
  (findAux fuel p a).bind fun s1 =>
    (findAux fuel s1.1 b).bind fun s2 =>
      some (if s1.2 ≠ s2.2 then pupd s2.1 s2.2 s1.2 else s2.1)

/-- The row-major list of all cells of an `n × n` grid
(the iteration order of the Python double loop). -/
def cellsRM (n : Nat) : List Cell :=
  (List.range n).flatMap fun r => (List.range n).map fun c => (r, c)

/-- The two conditional unions performed for one cell `(r, c)`:
right neighbour when the shared vertical border is thin, bottom neighbour
when the shared horizontal border is thin (`dict.get` default `True` is
part of the border maps, which are total here). -/
def unionsStep (n fuel : Nat) (hThick vThick : Cell → Bool) (p : PMap)
    (rc : Cell) : Option PMap :=
  (if rc.2 + 1 < n ∧ ¬ vThick (rc.1, rc.2 + 1) then
      unionUF fuel p (rc.1, rc.2) (rc.1, rc.2 + 1)
    else some p).bind fun p1 =>
    if rc.1 + 1 < n ∧ ¬ hThick (rc.1 + 1, rc.2) then
      unionUF fuel p1 (rc.1, rc.2) (rc.1 + 1, rc.2)
    else some p1

/-- The full double loop of unions, in row-major cell order. -/
def unionsLoop (n fuel : Nat) (hThick vThick : Cell → Bool) :
    List Cell → PMap → Option PMap
  | [], p => some p
  | x :: xs, p =>
      (unionsStep n fuel hThick vThick p x).bind
        (unionsLoop n fuel hThick vThick xs)

/-- `groups.setdefault(root, []).append(cell)` on an insertion-ordered
association list (Python dicts preserve key insertion order). -/
def setdefaultAppend (key cell : Cell) :
    List (Cell × List Cell) → List (Cell × List Cell)
  | [] => [(key, [cell])]
  | (k, cs) :: rest =>
      if k = key then (k, cs ++ [cell]) :: rest
      else (k, cs) :: setdefaultAppend key cell rest

/-- The grouping loop: for each cell in row-major order, find its root and
append the cell to that root's bucket. -/
def groupsLoop (fuel : Nat) :
    List Cell → PMap → List (Cell × List Cell) →
      Option (PMap × List (Cell × List Cell))
  | [], p, acc => some (p, acc)
  | x :: xs, p, acc =>
      (findAux fuel p x).bind fun s =>
        groupsLoop fuel xs s.1 (setdefaultAppend s.2 x acc)

/-- Fuel used for every `find` call: strictly more than the number of
`union` calls the algorithm can ever make, which bounds the depth of any
parent chain (the proofs below establish this bound). -/
def ufFuel (n : Nat) : Nat := 2 * n * n + 1

/-- `_group_cages`: union adjacent cells across thin borders, then group by
root and sort each cage's cells (Python `sorted` on `(r, c)` tuples). -/
def group_cages (n : Nat) (hThick vThick : Cell → Bool) :
    Option (List (List Cell)) :=
  (unionsLoop n (ufFuel n) hThick vThick (cellsRM n) (fun y => y)).bind fun p =>
    (groupsLoop (ufFuel n) (cellsRM n) p []).bind fun s =>
      some (s.2.map fun e => List.insertionSort rmLe e.2)

/-! ### Termination of the fuelled `find`

`Stab p x k` says the parent chain of `x` is stable after `k` steps, i.e.
`x` reaches a root (a fixed point of `p`) within `k` hops.  `Bounded p m`
says every chain stabilises within `m` steps.  The identity map is
`Bounded 0`; each path-halving step preserves the bound and each union
increases it by at most one, so every parent chain the algorithm ever
builds is shorter than `ufFuel n`. -/

/-- The parent chain of `x` is constant from step `k` on. -/
def Stab (p : PMap) (x : Cell) (k : Nat) : Prop := p^[k + 1] x = p^[k] x

theorem stab_zero {p : PMap} {x : Cell} : Stab p x 0 ↔ p x = x := by
  simp [Stab]

theorem stab_succ_iff {p : PMap} {x : Cell} {k : Nat} :
    Stab p x (k + 1) ↔ Stab p (p x) k := by
  unfold Stab
  rw [Function.iterate_succ_apply p (k + 1) x, Function.iterate_succ_apply p k x]

theorem Stab.succ {p : PMap} {x : Cell} {k : Nat} (h : Stab p x k) :
    Stab p x (k + 1) := by
  unfold Stab at h ⊢
  calc p^[k + 2] x = p (p^[k + 1] x) := Function.iterate_succ_apply' p (k + 1) x
    _ = p (p^[k] x) := by rw [h]
    _ = p^[k + 1] x := (Function.iterate_succ_apply' p k x).symm

theorem Stab.mono {p : PMap} {x : Cell} {k m : Nat} (h : Stab p x k)
    (hkm : k ≤ m) : Stab p x m := by
  obtain ⟨d, rfl⟩ := Nat.exists_eq_add_of_le hkm
  clear hkm
  induction d with
  | zero => exact h
  | succ d ih => exact ih.succ

/-- Every chain stabilises within `m` steps. -/
def Bounded (p : PMap) (m : Nat) : Prop := ∀ x, Stab p x m

theorem bounded_id : Bounded (fun y => y) 0 := by
  intro x; rw [stab_zero]

theorem Bounded.expand {p : PMap} {m m' : Nat} (h : Bounded p m)
    (hmm : m ≤ m') : Bounded p m' := fun x => (h x).mono hmm

/-- A path-halving update (`parent[x] = parent[parent[x]]` for a non-root
`x`) preserves every stability bound. -/
theorem stab_pupd_halve {p : PMap} {x : Cell} (hx : p x ≠ x) :
    ∀ (k : Nat) (y : Cell), Stab p y k → Stab (pupd p x (p (p x))) y k := by
  intro k
  induction k using Nat.strong_induction_on with
  | _ k ih =>
    intro y hy
    by_cases hroot : p y = y
    · have hyx : y ≠ x := fun h => hx (h ▸ hroot)
      have h0 : Stab (pupd p x (p (p x))) y 0 := by
        rw [stab_zero]; simpa [pupd, hyx] using hroot
      exact h0.mono (Nat.zero_le k)
    · match k with
      | 0 => exact absurd (stab_zero.mp hy) hroot
      | k + 1 =>
        have hy' : Stab p (p y) k := stab_succ_iff.mp hy
        rw [stab_succ_iff]
        rcases eq_or_ne y x with rfl | hyx
        · have hpx : pupd p y (p (p y)) y = p (p y) := by simp [pupd]
          rw [hpx]
          match k with
          | 0 =>
            have hr : p (p y) = p y := stab_zero.mp hy'
            rw [stab_zero, hr]
            simpa [pupd, hx] using hr
          | k + 1 =>
            have h2 : Stab p (p (p y)) k := stab_succ_iff.mp hy'
            exact (ih k (by omega) _ h2).mono (Nat.le_succ k)
        · have hpy : pupd p x (p (p x)) y = p y := by simp [pupd, hyx]
          rw [hpy]
          exact ih k (by omega) _ hy'

/-- `findAux` returns a root and preserves every stability bound. -/
theorem findAux_spec :
    ∀ (fuel : Nat) (p : PMap) (x : Cell) (p' : PMap) (r : Cell),
      findAux fuel p x = some (p', r) →
      p' r = r ∧ ∀ y k, Stab p y k → Stab p' y k := by
  intro fuel
  induction fuel with
  | zero => intro p x p' r h; simp [findAux] at h
  | succ fuel ih =>
    intro p x p' r h
    rw [findAux] at h
    by_cases hx : p x = x
    · rw [if_pos hx] at h
      obtain ⟨hp, hr⟩ := Prod.mk.injEq .. ▸ Option.some.injEq .. ▸ h
      subst hp; subst hr
      exact ⟨hx, fun y k hy => hy⟩
    · rw [if_neg hx] at h
      obtain ⟨hroot, hpres⟩ := ih _ _ _ _ h
      exact ⟨hroot, fun y k hy => hpres y k (stab_pupd_halve hx k y hy)⟩

/-- With enough fuel, `findAux` succeeds. -/
theorem findAux_total :
    ∀ (k : Nat) (p : PMap) (x : Cell) (fuel : Nat),
      Stab p x k → k < fuel → (findAux fuel p x).isSome := by
  intro k
  induction k using Nat.strong_induction_on with
  | _ k ih =>
    intro p x fuel hs hk
    cases fuel with
    | zero => omega
    | succ fuel =>
      rw [findAux]
      by_cases hx : p x = x
      · rw [if_pos hx]; rfl
      · rw [if_neg hx]
        match k with
        | 0 => exact absurd (stab_zero.mp hs) hx
        | k + 1 =>
          have hs' : Stab p (p x) k := stab_succ_iff.mp hs
          match k with
          | 0 =>
            have hr : p (p x) = p x := stab_zero.mp hs'
            have h0 : Stab (pupd p x (p (p x))) (p (p x)) 0 := by
              rw [stab_zero, hr]
              simpa [pupd, hx] using hr
            exact ih 0 (by omega) _ _ fuel h0 (by omega)
          | k + 1 =>
            have hs'' : Stab p (p (p x)) k := stab_succ_iff.mp hs'
            have h1 : Stab (pupd p x (p (p x))) (p (p x)) k :=
              stab_pupd_halve hx k _ hs''
            exact ih k (by omega) _ _ fuel h1 (by omega)

/-- Attaching one root under another increases the bound by at most one. -/
theorem stab_pupd_union {p : PMap} {ra rb : Cell}
    (hra : p ra = ra) (hrb : p rb = rb) (hne : ra ≠ rb) :
    ∀ (k : Nat) (y : Cell), Stab p y k → Stab (pupd p rb ra) y (k + 1) := by
  intro k
  induction k using Nat.strong_induction_on with
  | _ k ih =>
    intro y hy
    by_cases hroot : p y = y
    · rcases eq_or_ne y rb with rfl | hyrb
      · have h1 : Stab (pupd p y ra) y 1 := by
          rw [stab_succ_iff]
          have hv : pupd p y ra y = ra := by simp [pupd]
          rw [hv, stab_zero]
          simpa [pupd, hne] using hra
        exact h1.mono (by omega)
      · have h0 : Stab (pupd p rb ra) y 0 := by
          rw [stab_zero]; simpa [pupd, hyrb] using hroot
        exact h0.mono (by omega)
    · match k with
      | 0 => exact absurd (stab_zero.mp hy) hroot
      | k + 1 =>
        have hy' : Stab p (p y) k := stab_succ_iff.mp hy
        have hyrb : y ≠ rb := fun h => hroot (h ▸ hrb)
        rw [stab_succ_iff]
        have hpy : pupd p rb ra y = p y := by simp [pupd, hyrb]
        rw [hpy]
        exact ih k (by omega) _ hy'

/-- `unionUF` succeeds given enough fuel and increases the bound by at
most one. -/
theorem unionUF_spec {p : PMap} {m fuel : Nat} (hb : Bounded p m)
    (hf : m < fuel) (a b : Cell) :
    ∃ p', unionUF fuel p a b = some p' ∧ Bounded p' (m + 1) := by
  obtain ⟨⟨p1, ra⟩, e1⟩ :=
    Option.isSome_iff_exists.mp (findAux_total m p a fuel (hb a) hf)
  obtain ⟨hr1, hpres1⟩ := findAux_spec fuel p a p1 ra e1
  have hb1 : Bounded p1 m := fun x => hpres1 x m (hb x)
  obtain ⟨⟨p2, rb⟩, e2⟩ :=
    Option.isSome_iff_exists.mp (findAux_total m p1 b fuel (hb1 b) hf)
  obtain ⟨hr2, hpres2⟩ := findAux_spec fuel p1 b p2 rb e2
  have hb2 : Bounded p2 m := fun x => hpres2 x m (hb1 x)
  have hr1' : p2 ra = ra := stab_zero.mp (hpres2 ra 0 (stab_zero.mpr hr1))
  by_cases hne : ra = rb
  · refine ⟨p2, ?_, hb2.expand (Nat.le_succ m)⟩
    simp [unionUF, e1, e2, hne]
  · refine ⟨pupd p2 rb ra, ?_, fun x => stab_pupd_union hr1' hr2 hne m x (hb2 x)⟩
    simp [unionUF, e1, e2, hne]

/-- One cell's worth of unions succeeds and raises the bound by at most 2. -/
theorem unionsStep_spec {n fuel m : Nat} {hT vT : Cell → Bool} {p : PMap}
    (hb : Bounded p m) (hf : m + 2 ≤ fuel) (rc : Cell) :
    ∃ p', unionsStep n fuel hT vT p rc = some p' ∧ Bounded p' (m + 2) := by
  by_cases c1 : rc.2 + 1 < n ∧ ¬ vT (rc.1, rc.2 + 1)
  · obtain ⟨p1, e1, hb1⟩ :=
      @unionUF_spec p m fuel hb (by omega) (rc.1, rc.2) (rc.1, rc.2 + 1)
    by_cases c2 : rc.1 + 1 < n ∧ ¬ hT (rc.1 + 1, rc.2)
    · obtain ⟨p2, e2, hb2⟩ :=
        @unionUF_spec p1 (m + 1) fuel hb1 (by omega) (rc.1, rc.2) (rc.1 + 1, rc.2)
      refine ⟨p2, ?_, by simpa using hb2⟩
      rw [unionsStep, if_pos c1, e1, Option.some_bind, if_pos c2, e2]
    · refine ⟨p1, ?_, hb1.expand (by omega)⟩
      rw [unionsStep, if_pos c1, e1, Option.some_bind, if_neg c2]
  · by_cases c2 : rc.1 + 1 < n ∧ ¬ hT (rc.1 + 1, rc.2)
    · obtain ⟨p2, e2, hb2⟩ :=
        @unionUF_spec p m fuel hb (by omega) (rc.1, rc.2) (rc.1 + 1, rc.2)
      refine ⟨p2, ?_, hb2.expand (by omega)⟩
      rw [unionsStep, if_neg c1, Option.some_bind, if_pos c2]
      exact e2
    · refine ⟨p, ?_, hb.expand (by omega)⟩
      rw [unionsStep, if_neg c1, Option.some_bind, if_neg c2]

/-- The whole union loop succeeds and the final bound is twice the number
of processed cells. -/
theorem unionsLoop_spec {n fuel : Nat} {hT vT : Cell → Bool} :
    ∀ (l : List Cell) (p : PMap) (m : Nat), Bounded p m →
      m + 2 * l.length < fuel →
      ∃ p', unionsLoop n fuel hT vT l p = some p' ∧
        Bounded p' (m + 2 * l.length) := by
  intro l
  induction l with
  | nil =>
    intro p m hb _
    exact ⟨p, rfl, by simpa using hb⟩
  | cons x xs ih =>
    intro p m hb hf
    simp only [List.length_cons] at hf
    obtain ⟨p1, e1, hb1⟩ := @unionsStep_spec n fuel m hT vT p hb (by omega) x
    obtain ⟨p', e', hb'⟩ := ih p1 (m + 2) hb1 (by omega)
    refine ⟨p', ?_, by
      have : m + 2 + 2 * xs.length = m + 2 * (xs.length + 1) := by ring
      simpa [List.length_cons, ← this] using hb'⟩
    rw [unionsLoop, e1, Option.some_bind]
    exact e'

/-- `setdefaultAppend` adds exactly one occurrence of `cell` to the
contents of the buckets. -/
theorem sda_count (key cell : Cell) :
    ∀ (acc : List (Cell × List Cell)) (z : Cell),
      ((setdefaultAppend key cell acc).flatMap Prod.snd).count z
        = (acc.flatMap Prod.snd).count z + if z = cell then 1 else 0 := by
  intro acc
  induction acc with
  | nil =>
    intro z
    rcases eq_or_ne z cell with rfl | h
    · simp [setdefaultAppend]
    · simp [setdefaultAppend, h, Ne.symm h]
  | cons e rest ih =>
    intro z
    obtain ⟨k, cs⟩ := e
    by_cases hk : k = key
    · simp only [setdefaultAppend, if_pos hk, List.flatMap_cons,
        List.count_append]
      rcases eq_or_ne z cell with rfl | h
      · simp; omega
      · simp [h, Ne.symm h]
    · simp only [setdefaultAppend, if_neg hk, List.flatMap_cons,
        List.count_append, ih z]
      omega

/-- `setdefaultAppend` keeps all buckets non-empty. -/
theorem sda_nonempty {key cell : Cell} :
    ∀ {acc : List (Cell × List Cell)}, (∀ e ∈ acc, e.2 ≠ []) →
      ∀ e ∈ setdefaultAppend key cell acc, e.2 ≠ [] := by
  intro acc
  induction acc with
  | nil =>
    intro _ e he
    simp [setdefaultAppend] at he
    simp [he]
  | cons e0 rest ih =>
    intro h e he
    obtain ⟨k, cs⟩ := e0
    by_cases hk : k = key
    · simp only [setdefaultAppend, if_pos hk, List.mem_cons] at he
      rcases he with rfl | he
      · simp
      · exact h e (List.mem_cons_of_mem _ he)
    · simp only [setdefaultAppend, if_neg hk, List.mem_cons] at he
      rcases he with rfl | he
      · exact h (k, cs) (List.mem_cons_self _ _)
      · exact ih (fun e' he' => h e' (List.mem_cons_of_mem _ he')) e he

/-- The grouping loop succeeds and distributes exactly the processed cells
over the buckets, keeping buckets non-empty. -/
theorem groupsLoop_spec {fuel m : Nat} :
    ∀ (l : List Cell) (p : PMap) (acc : List (Cell × List Cell)),
      Bounded p m → m < fuel →
      ∃ p' acc', groupsLoop fuel l p acc = some (p', acc') ∧
        (∀ z : Cell, (acc'.flatMap Prod.snd).count z
            = (acc.flatMap Prod.snd).count z + l.count z) ∧
        ((∀ e ∈ acc, e.2 ≠ []) → ∀ e ∈ acc', e.2 ≠ []) := by
  intro l
  induction l with
  | nil =>
    intro p acc hb _
    exact ⟨p, acc, rfl, fun z => by simp, fun h => h⟩
  | cons x xs ih =>
    intro p acc hb hf
    obtain ⟨⟨p1, r⟩, e1⟩ :=
      Option.isSome_iff_exists.mp (findAux_total m p x fuel (hb x) hf)
    obtain ⟨_, hpres⟩ := findAux_spec fuel p x p1 r e1
    have hb1 : Bounded p1 m := fun y => hpres y m (hb y)
    obtain ⟨p', acc', e', hcount, hne⟩ :=
      ih p1 (setdefaultAppend r x acc) hb1 hf
    refine ⟨p', acc', ?_, ?_, ?_⟩
    · rw [groupsLoop, e1, Option.some_bind]
      exact e'
    · intro z
      rw [hcount z, sda_count, List.count_cons]
      rcases eq_or_ne z x with rfl | h
      · simp; omega
      · simp [h, Ne.symm h]
    · intro h
      exact hne (sda_nonempty h)

theorem cell_count_perm {l₁ l₂ : List Cell} (h : l₁.Perm l₂) (z : Cell) :
    l₁.count z = l₂.count z := by
  rw [List.count_eq_countP, List.count_eq_countP]
  exact List.Perm.countP_eq _ h

theorem cell_nodup_count_le_one :
    ∀ {l : List Cell}, l.Nodup → ∀ z : Cell, l.count z ≤ 1 := by
  intro l
  induction l with
  | nil => intro _ z; simp
  | cons x xs ih =>
    intro h z
    obtain ⟨hx, hxs⟩ := List.nodup_cons.mp h
    by_cases hzx : z = x
    · subst hzx
      have h0 : xs.count z = 0 := List.count_eq_zero.mpr hx
      simp [List.count_cons, h0]
    · simp [List.count_cons, hzx]
      exact ih hxs z

theorem cell_nodup_of_count_le_one :
    ∀ {l : List Cell}, (∀ z : Cell, l.count z ≤ 1) → l.Nodup := by
  intro l
  induction l with
  | nil => intro _; simp
  | cons x xs ih =>
    intro h
    rw [List.nodup_cons]
    constructor
    · have hx := h x
      simp [List.count_cons] at hx
      have h0 : xs.count x = 0 := by omega
      exact List.count_eq_zero.mp h0
    · refine ih fun z => ?_
      have hz := h z
      rw [List.count_cons] at hz
      omega

theorem mem_cellsRM {n : Nat} {z : Cell} :
    z ∈ cellsRM n ↔ z.1 < n ∧ z.2 < n := by
  constructor
  · intro h
    simp only [cellsRM, List.mem_flatMap, List.mem_map, List.mem_range] at h
    obtain ⟨r, hr, c, hc, rfl⟩ := h
    exact ⟨hr, hc⟩
  · intro ⟨h1, h2⟩
    simp only [cellsRM, List.mem_flatMap, List.mem_map, List.mem_range]
    exact ⟨z.1, h1, z.2, h2, rfl⟩

theorem nodup_cellsRM (n : Nat) : (cellsRM n).Nodup := by
  rw [cellsRM, List.nodup_flatMap]
  constructor
  · intro r _
    refine (List.nodup_range n).map ?_
    intro c c' h
    simpa using congrArg Prod.snd h
  · refine (List.nodup_range n).imp ?_
    intro r r' hrr a ha ha'
    simp only [List.mem_map, List.mem_range] at ha ha'
    obtain ⟨c, _, rfl⟩ := ha
    obtain ⟨c', _, h'⟩ := ha'
    have hr : r' = r := by simpa using congrArg Prod.fst h'
    exact hrr hr.symm

theorem count_cellsRM (n : Nat) (z : Cell) :
    (cellsRM n).count z = if z.1 < n ∧ z.2 < n then 1 else 0 := by
  by_cases h : z.1 < n ∧ z.2 < n
  · rw [if_pos h]
    have hmem : z ∈ cellsRM n := mem_cellsRM.mpr h
    have h1 : 1 ≤ (cellsRM n).count z := List.count_pos_iff.mpr hmem
    have h2 : (cellsRM n).count z ≤ 1 :=
      cell_nodup_count_le_one (nodup_cellsRM n) z
    omega
  · rw [if_neg h]
    exact List.count_eq_zero.mpr fun hmem => h (mem_cellsRM.mp hmem)

/-- Sorting the buckets does not change the multiset of cells. -/
theorem count_flat_sorted :
    ∀ (acc : List (Cell × List Cell)) (z : Cell),
      ((acc.map fun e => List.insertionSort rmLe e.2).flatMap id).count z
        = (acc.flatMap Prod.snd).count z := by
  intro acc
  induction acc with
  | nil => intro z; simp
  | cons e rest ih =>
    intro z
    simp only [List.map_cons, List.flatMap_cons, List.count_append, id]
    rw [cell_count_perm (List.perm_insertionSort rmLe e.2) z, ih z]

/-- A bucket's content is counted inside the flattened buckets. -/
theorem count_le_flat :
    ∀ {acc : List (Cell × List Cell)} {e : Cell × List Cell}, e ∈ acc →
      ∀ z : Cell, e.2.count z ≤ (acc.flatMap Prod.snd).count z := by
  intro acc
  induction acc with
  | nil => intro e he; cases he
  | cons a rest ih =>
    intro e he z
    rcases List.mem_cons.mp he with heq | hmem
    · simp only [List.flatMap_cons, List.count_append, heq]
      exact Nat.le_add_right _ _
    · simp only [List.flatMap_cons, List.count_append]
      exact (ih hmem z).trans (Nat.le_add_left _ _)

/-- A cell with total multiplicity one lies in exactly one group. -/
theorem countP_mem_eq_one :
    ∀ {L : List (List Cell)} {z : Cell}, (L.flatMap id).count z = 1 →
      L.countP (fun g => decide (z ∈ g)) = 1 := by
  intro L
  induction L with
  | nil => intro z h; simp at h
  | cons g L ih =>
    intro z h
    simp only [List.flatMap_cons, List.count_append, id] at h
    rw [List.countP_cons]
    by_cases hg : z ∈ g
    · have h1 : 1 ≤ g.count z := List.count_pos_iff.mpr hg
      have h0 : (L.flatMap id).count z = 0 := by omega
      have hz : z ∉ L.flatMap id := List.count_eq_zero.mp h0
      have hcp : L.countP (fun g => decide (z ∈ g)) = 0 := by
        rw [List.countP_eq_zero]
        intro g' hg'
        simp only [decide_eq_true_eq]
        intro hmem
        exact hz (List.mem_flatMap.mpr ⟨g', hg', hmem⟩)
      simp [hg, hcp]
    · have h0 : g.count z = 0 := List.count_eq_zero.mpr hg
      rw [h0, Nat.zero_add] at h
      simp [hg, ih h]

theorem rmLe_ne_imp {a b : Cell} (h : rmLe a b) (hne : a ≠ b) : rmLt a b := by
  rcases h with h | ⟨h1, h2⟩
  · exact Or.inl h
  · rcases Nat.lt_or_ge a.2 b.2 with h3 | h3
    · exact Or.inr ⟨h1, h3⟩
    · exact absurd (Prod.ext h1 (Nat.le_antisymm h2 h3)) hne

/-- **C1.** For every grid size `n ∈ [4,9]` and every pair of thick-border
maps, `_group_cages` succeeds and its cage list partitions the `n × n`
grid: every in-grid cell lies in exactly one cage, cages contain only
in-grid cells, every cage is non-empty, and each cage is strictly sorted
in row-major order. -/
theorem group_cages_partitions (n : Nat) (hThick vThick : Cell → Bool)
    (h4 : 4 ≤ n) (h9 : n ≤ 9) :
    ∃ cages, group_cages n hThick vThick = some cages ∧
      (∀ r c : Nat, r < n → c < n →
        cages.countP (fun g => decide ((r, c) ∈ g)) = 1) ∧
      (∀ g ∈ cages, ∀ z ∈ g, z.1 < n ∧ z.2 < n) ∧
      (∀ g ∈ cages, g ≠ []) ∧
      (∀ g ∈ cages, List.Pairwise rmLt g) := by
  have hflen : 0 + 2 * (cellsRM n).length < ufFuel n := by
    have hl : (cellsRM n).length = n * n := by
      simp only [cellsRM, List.length_flatMap, Function.comp_def,
        List.length_map, List.length_range, List.map_const']
      simp [List.sum_replicate, smul_eq_mul]
    rw [hl, ufFuel]
    have : 2 * (n * n) = 2 * n * n := by ring
    omega
  obtain ⟨p, e1, hb⟩ :=
    @unionsLoop_spec n (ufFuel n) hThick vThick (cellsRM n) (fun y => y) 0
      bounded_id hflen
  obtain ⟨p', acc', e2, hcount, hnonempty⟩ :=
    @groupsLoop_spec (ufFuel n) (0 + 2 * (cellsRM n).length) (cellsRM n) p []
      hb hflen
  have hbuckets : ∀ e ∈ acc', e.2 ≠ [] := hnonempty (by intro e he; cases he)
  refine ⟨acc'.map fun e => List.insertionSort rmLe e.2, ?_, ?_, ?_, ?_, ?_⟩
  · rw [group_cages, e1, Option.some_bind, e2, Option.some_bind]
  · -- every in-grid cell lies in exactly one cage
    intro r c hr hc
    apply countP_mem_eq_one
    rw [count_flat_sorted, hcount]
    simp [count_cellsRM, hr, hc]
  · -- cages contain only in-grid cells
    intro g hg z hz
    have hmem : z ∈ (acc'.map fun e => List.insertionSort rmLe e.2).flatMap id :=
      List.mem_flatMap.mpr ⟨g, hg, hz⟩
    have hpos : 0 < ((acc'.map fun e => List.insertionSort rmLe e.2).flatMap
        id).count z := List.count_pos_iff.mpr hmem
    rw [count_flat_sorted, hcount] at hpos
    simp only [List.flatMap_nil, List.count_nil, Nat.zero_add,
      count_cellsRM] at hpos
    by_cases h : z.1 < n ∧ z.2 < n
    · exact h
    · rw [if_neg h] at hpos; omega
  · -- every cage is non-empty
    intro g hg
    obtain ⟨e, he, rfl⟩ := List.mem_map.mp hg
    intro hnil
    apply hbuckets e he
    have := (List.perm_insertionSort rmLe e.2).length_eq
    rw [hnil] at this
    exact List.length_eq_zero.mp this.symm
  · -- each cage strictly sorted in row-major order
    intro g hg
    obtain ⟨e, he, rfl⟩ := List.mem_map.mp hg
    have hsorted : List.Pairwise rmLe (List.insertionSort rmLe e.2) :=
      List.sorted_insertionSort rmLe e.2
    have hnd : (List.insertionSort rmLe e.2).Nodup := by
      refine cell_nodup_of_count_le_one fun z => ?_
      rw [cell_count_perm (List.perm_insertionSort rmLe e.2) z]
      calc e.2.count z ≤ (acc'.flatMap Prod.snd).count z := count_le_flat he z
        _ = (cellsRM n).count z := by
            rw [hcount]; simp
        _ ≤ 1 := by rw [count_cellsRM]; split <;> omega
    exact (hsorted.and hnd).imp fun h => rmLe_ne_imp h.1 h.2

/-- Witness for C1 at `n = 4` with all borders thick. -/
theorem group_cages_partitions_witness :
    ∃ cages, group_cages 4 (fun _ => true) (fun _ => true) = some cages ∧
      (∀ r c : Nat, r < 4 → c < 4 →
        cages.countP (fun g => decide ((r, c) ∈ g)) = 1) ∧
      (∀ g ∈ cages, ∀ z ∈ g, z.1 < 4 ∧ z.2 < 4) ∧
      (∀ g ∈ cages, g ≠ []) ∧
      (∀ g ∈ cages, List.Pairwise rmLt g) :=
  group_cages_partitions 4 (fun _ => true) (fun _ => true) (by decide) (by decide)

/-! ### Exact fraction arithmetic (the model of Python floats)

Python floats are modelled by exact rational arithmetic.  To keep every
concrete evaluation kernel-reducible we represent rationals as raw
`num / den` integer pairs with positive denominators and no gcd
normalisation (`Rat`'s normalising operations do not reduce well).  Every
constructor below keeps the denominator positive, so the comparison
`a.num * b.den < b.num * a.den` is the ordinary rational order.  The float
literals `0.20` and `0.5` of the source are the exact rationals `1/5` and
`1/2`; each concrete counterexample below only involves values on which
binary floating point is exact, so the model and the Python code agree
there. -/

/-- An unreduced fraction; all operations keep `den` positive. -/
structure Frac where
  num : ℤ
  den : ℤ
deriving DecidableEq, Repr

/-- Embed an integer. -/
def Frac.ofInt (n : ℤ) : Frac := ⟨n, 1⟩

/-- Embed a natural number. -/
def Frac.ofNat (n : ℕ) : Frac := ⟨(n : ℤ), 1⟩

def Frac.add (a b : Frac) : Frac :=
  ⟨a.num * b.den + b.num * a.den, a.den * b.den⟩

def Frac.sub (a b : Frac) : Frac :=
  ⟨a.num * b.den - b.num * a.den, a.den * b.den⟩

def Frac.mul (a b : Frac) : Frac :=
  ⟨a.num * b.num, a.den * b.den⟩

/-- Division; the sign is moved into the numerator so the denominator
stays positive (division by an exact zero never happens on the paths the
theorems traverse). -/
def Frac.div (a b : Frac) : Frac :=
  let n := a.num * b.den
  let d := a.den * b.num
  if d < 0 then ⟨-n, -d⟩ else ⟨n, d⟩

def Frac.abs (a : Frac) : Frac := ⟨|a.num|, a.den⟩

/-- Strict order (valid for positive denominators). -/
def Frac.blt (a b : Frac) : Bool := a.num * b.den < b.num * a.den

/-- Equality as rationals (valid for positive denominators). -/
def Frac.beq (a b : Frac) : Bool := a.num * b.den = b.num * a.den

/-- Floor (denominator positive, so flooring division of `num` by `den`). -/
def Frac.floor (a : Frac) : ℤ := Int.fdiv a.num a.den

/-! ### Line fitting (`_fit_lines`, lines 204-217; `_regularity_score`,
lines 183-201; `_detect_size_and_lines`, lines 220-236) -/

/-- Python 3 `round` (round half to even), on an exact rational. -/
def pyRound (q : Frac) : ℤ :=
  let f : ℤ := q.floor
  let r : Frac := q.sub (Frac.ofInt f)
  if r.blt ⟨1, 2⟩ then f
  else if Frac.blt ⟨1, 2⟩ r then f + 1
  else if f % 2 = 0 then f else f + 1

/-- Python `min` over a non-empty list of `(dist, candidate)` tuples:
lexicographic order, the earliest minimum wins. -/
def pyMinPair : List (Frac × ℤ) → Frac × ℤ
  | [] => (Frac.ofInt 0, 0)
  | d :: ds =>
      ds.foldl
        (fun a b => if b.1.blt a.1 || (b.1.beq a.1 && decide (b.2 < a.2))
          then b else a) d

/-- Python `min` over a non-empty list of rationals. -/
def pyMinF : List Frac → Frac
  | [] => Frac.ofInt 0
  | x :: xs => xs.foldl (fun a b => if b.blt a then b else a) x

/-- `_fit_lines`: select `n + 1` evenly spaced grid lines from candidates. -/
def fitLines (candidates : List ℤ) (total : ℤ) (n : Nat) : List ℤ :=
  if candidates.length < 2 then
    (List.range (n + 1)).map fun (i : ℕ) =>
      pyRound ((Frac.ofNat i |>.mul (Frac.ofInt total)).div (Frac.ofNat n))
  else
    let first : ℤ := candidates.headI
    let last : ℤ := candidates.getLastD 0
    let spacing : Frac := (Frac.ofInt (last - first)).div (Frac.ofNat n)
    (List.range (n + 1)).map fun (k : ℕ) =>
      let expected : Frac := (Frac.ofInt first).add ((Frac.ofNat k).mul spacing)
      let md := pyMinPair
        (candidates.map fun (c : ℤ) => (((Frac.ofInt c).sub expected).abs, c))
      if md.1.blt (spacing.mul ⟨1, 5⟩) then md.2 else pyRound expected

/-- A score value; `none` models `float("inf")`. -/
def ScoreV : Type := Option Frac

/-- Comparison against possibly-infinite scores (`none` is `+∞`). -/
def ScoreV.blt : ScoreV → ScoreV → Bool
  | none, _ => false
  | some _, none => true
  | some a, some b => a.blt b

/-- Sum of possibly-infinite scores. -/
def ScoreV.add : ScoreV → ScoreV → ScoreV
  | none, _ => none
  | _, none => none
  | some a, some b => some (a.add b)

/-- `_regularity_score`: how well candidates fit a regular `n`-division
grid; lower is better, `none` is `float("inf")`. -/
def regularityScore (candidates : List ℤ) (total : ℤ) (n : Nat) : ScoreV :=
  if candidates.length < 2 then none
  else
    let first : ℤ := candidates.headI
    let last : ℤ := candidates.getLastD 0
    let spacing : Frac := (Frac.ofInt (last - first)).div (Frac.ofNat n)
    if spacing.blt (Frac.ofInt 10) then none
    else
      let me := (List.range (n + 1)).foldl
        (fun (acc : ℤ × Frac) (k : ℕ) =>
          let expected : Frac :=
            (Frac.ofInt first).add ((Frac.ofNat k).mul spacing)
          let minDist := pyMinF
            (candidates.map fun (c : ℤ) => ((Frac.ofInt c).sub expected).abs)
          if minDist.blt (spacing.mul ⟨1, 5⟩) then
            (acc.1 + 1, acc.2.add minDist)
          else (acc.1, acc.2.add (spacing.mul ⟨1, 2⟩)))
        ((0 : ℤ), Frac.ofInt 0)
      some (((Frac.ofInt (-me.1)).mul (Frac.ofInt 1000)).add
        (me.2.div (Frac.ofNat (n + 1))))

/-- `_detect_size_and_lines`: pick the grid size (unless forced) and fit
both axes. -/
def detectSizeAndLines (hCands vCands : List ℤ) (gh gw : ℤ)
    (nOpt : Option Nat) : Nat × List ℤ × List ℤ :=
  match nOpt with
  | some n => (n, fitLines hCands gh n, fitLines vCands gw n)
  | none =>
      let best := (List.range' 4 6).foldl
        (fun (acc : Nat × ScoreV) (tryN : Nat) =>
          let score := (regularityScore hCands gh tryN).add
            (regularityScore vCands gw tryN)
          if score.blt acc.2 then (tryN, score) else acc)
        ((4, none) : Nat × ScoreV)
      (best.1, fitLines hCands gh best.1, fitLines vCands gw best.1)

/-- **C4 (amended).** For every `n ∈ [4,9]` and all candidate lists,
`_fit_lines` returns exactly `n + 1` positions on each axis.  (The strict
monotonicity half of the original claim is refuted below.) -/
theorem fitLines_length (n : Nat) (h4 : 4 ≤ n) (h9 : n ≤ 9)
    (hCands vCands : List ℤ) (gh gw : ℤ) :
    (fitLines hCands gh n).length = n + 1 ∧
      (fitLines vCands gw n).length = n + 1 := by
  constructor <;>
    (rw [fitLines]; split <;> simp only [List.length_map, List.length_range])

/-- Witness for the amended C4 at `n = 4`. -/
theorem fitLines_length_witness :
    (fitLines [0, 1] 100 4).length = 4 + 1 ∧
      (fitLines [] 200 4).length = 4 + 1 :=
  fitLines_length 4 (by decide) (by decide) [0, 1] [] 100 200

/-- **C4 counterexample.** With the strictly increasing candidate list
`[0, 1]` and `n = 4`, `_fit_lines` returns `[0, 0, 0, 1, 1]`, which is not
strictly increasing (all intermediate values are exact in binary floating
point, so the Python code computes the same list). -/
theorem fitLines_counterexample :
    fitLines [0, 1] 100 4 = [0, 0, 0, 1, 1] ∧
      ¬ List.Chain' (fun a b : ℤ => a < b) (fitLines [0, 1] 100 4) := by
  have he : fitLines [0, 1] 100 4 = [0, 0, 0, 1, 1] := by decide
  refine ⟨he, fun hch => ?_⟩
  rw [he] at hch
  rcases List.chain'_cons.mp hch with ⟨h00, _⟩
  exact lt_irrefl 0 h00

/-! ### Trim-to-text binarisation (`_trim_to_text` step 1, lines 386-391)

The Python code calls
`cv2.threshold(crop_gray, 0, 255, THRESH_BINARY_INV + THRESH_OTSU)`.
`otsuThreshold` is OpenCV's `getThreshVal_Otsu_8u` in exact rational
arithmetic; the `FLT_EPSILON` class-emptiness guards are modelled as exact
zero tests, which agrees with the float code for any crop with fewer than
about `2^23` pixels.  With `THRESH_BINARY_INV`, a pixel is marked dark
(255) iff its intensity is at most the chosen threshold. -/

/-- One iteration of OpenCV's Otsu loop; the state is
`(mu1, q1, max_sigma, max_val)`. -/
def otsuStep (pixels : List ℕ) (mu scale : Frac)
    (st : Frac × Frac × Frac × ℕ) (i : ℕ) : Frac × Frac × Frac × ℕ :=
  let mu1a := st.1.mul st.2.1
  let pI : Frac := (Frac.ofNat (pixels.count i)).mul scale
  let q1 := st.2.1.add pI
  let q2 := (Frac.ofInt 1).sub q1
  if q1.blt (Frac.ofInt 0) || q1.beq (Frac.ofInt 0)
      || q2.blt (Frac.ofInt 0) || q2.beq (Frac.ofInt 0) then
    (mu1a, q1, st.2.2.1, st.2.2.2)
  else
    let mu1b := (mu1a.add ((Frac.ofNat i).mul pI)).div q1
    let mu2 := (mu.sub (q1.mul mu1b)).div q2
    let sigma := ((q1.mul q2).mul (mu1b.sub mu2)).mul (mu1b.sub mu2)
    if st.2.2.1.blt sigma then (mu1b, q1, sigma, i)
    else (mu1b, q1, st.2.2.1, st.2.2.2)

/-- The global mean `mu` of OpenCV's Otsu computation. -/
def otsuMu (pixels : List ℕ) (scale : Frac) : Frac :=
  ((List.range 256).foldl
    (fun acc (i : ℕ) => acc.add ((Frac.ofNat i).mul
      (Frac.ofNat (pixels.count i)))) (Frac.ofInt 0)).mul scale

/-- OpenCV's Otsu threshold over a list of 8-bit pixel intensities. -/
def otsuThreshold (pixels : List ℕ) : ℕ :=
  let scale : Frac := (Frac.ofInt 1).div (Frac.ofNat pixels.length)
  (((List.range 256).foldl (otsuStep pixels (otsuMu pixels scale) scale)
    ((Frac.ofInt 0, Frac.ofInt 0, Frac.ofInt 0, 0) :
      Frac × Frac × Frac × ℕ))).2.2.2

/-- Step 1 of `_trim_to_text`: Otsu inverse binarisation of the label
crop; `true` marks a dark pixel. -/
def trimBinarize (crop : List (List ℕ)) : List (List Bool) :=
  let t := otsuThreshold (crop.flatMap id)
  crop.map fun row => row.map fun px => decide (px ≤ t)

/-- Modelled from the claim's words (not from the source): a fixed inverse
threshold at intensity 160 — dark iff intensity is below 160. -/
def fixedThreshold160 (crop : List (List ℕ)) : List (List Bool) :=
  crop.map fun row => row.map fun px => decide (px < 160)

/-- Folding a function over a list from a fixed point stays there. -/
theorem foldl_fixed {α β : Type} (f : α → β → α) (s : α) :
    ∀ l : List β, (∀ i ∈ l, f s i = s) → l.foldl f s = s := by
  intro l
  induction l with
  | nil => intro _; rfl
  | cons x xs ih =>
    intro h
    rw [List.foldl_cons, h x (List.mem_cons_self _ _)]
    exact ih fun i hi => h i (List.mem_cons_of_mem _ hi)

/-- On a one-intensity image `[100]` both classes are never simultaneously
non-empty, so every Otsu iteration takes the skip branch; before bin 100
the state is `(0, 0, 0, 0)`. -/
theorem otsuStep_single_lo (mu : Frac) (i : ℕ) (hne : i ≠ 100) :
    otsuStep [100] mu ⟨1, 1⟩ (Frac.ofInt 0, Frac.ofInt 0, Frac.ofInt 0, 0) i
      = (Frac.ofInt 0, Frac.ofInt 0, Frac.ofInt 0, 0) := by
  have hcount : List.count i [100] = 0 := by
    simp [List.count_cons, List.count_nil]
    omega
  simp only [otsuStep, hcount]
  rfl

/-- After bin 100 the state of the skip-only loop is `(0, 1, 0, 0)`. -/
theorem otsuStep_single_mid (mu : Frac) :
    otsuStep [100] mu ⟨1, 1⟩ (Frac.ofInt 0, Frac.ofInt 0, Frac.ofInt 0, 0) 100
      = (Frac.ofInt 0, ⟨1, 1⟩, Frac.ofInt 0, 0) := rfl

theorem otsuStep_single_hi (mu : Frac) (i : ℕ) (hne : i ≠ 100) :
    otsuStep [100] mu ⟨1, 1⟩ (Frac.ofInt 0, ⟨1, 1⟩, Frac.ofInt 0, 0) i
      = (Frac.ofInt 0, ⟨1, 1⟩, Frac.ofInt 0, 0) := by
  have hcount : List.count i [100] = 0 := by
    simp [List.count_cons, List.count_nil]
    omega
  simp only [otsuStep, hcount]
  rfl

/-- OpenCV's Otsu on the one-intensity image `[100]` returns threshold 0:
`max_val` is never written because one of the two classes is always empty. -/
theorem otsu_single : otsuThreshold [100] = 0 := by
  simp only [otsuThreshold]
  have hsc : (Frac.ofInt 1).div (Frac.ofNat ([100] : List ℕ).length)
      = (⟨1, 1⟩ : Frac) := rfl
  rw [hsc]
  have hsplit : List.range 256
      = (List.range' 0 100 ++ [100]) ++ List.range' 101 155 := by
    rw [List.range_eq_range']
    have h1 : List.range' 0 100 ++ List.range' 100 156 = List.range' 0 256 :=
      List.range'_append 0 100 156 1
    have h2 : List.range' 100 1 ++ List.range' 101 155 = List.range' 100 156 :=
      List.range'_append 100 1 155 1
    rw [← h1, ← h2, List.append_assoc]
    rfl
  rw [hsplit, List.foldl_append, List.foldl_append]
  rw [foldl_fixed _ _ _ fun i hi => otsuStep_single_lo _ i (by
    rcases List.mem_range'_1.mp hi with ⟨_, hlt⟩
    omega)]
  rw [List.foldl_cons, List.foldl_nil, otsuStep_single_mid]
  rw [foldl_fixed _ _ _ fun i hi => otsuStep_single_hi _ i (by
    rcases List.mem_range'_1.mp hi with ⟨hge, _⟩
    omega)]

/-- **C7 counterexample.**  On the one-pixel crop `[[100]]` the code's
Otsu threshold is 0, so the pixel of intensity 100 — well below 160 — is
*not* marked dark; the fixed-160 rule claimed by the spec marks it dark.
All intermediate values are exact in binary floating point. -/
theorem trimBinarize_counterexample :
    trimBinarize [[100]] = [[false]] ∧
      fixedThreshold160 [[100]] = [[true]] ∧
      trimBinarize [[100]] ≠ fixedThreshold160 [[100]] := by
  have ht : trimBinarize [[100]] = [[false]] := by
    simp only [trimBinarize]
    have hfm : ([[100]] : List (List ℕ)).flatMap id = [100] := rfl
    rw [hfm, otsu_single]
    rfl
  refine ⟨ht, by decide, ?_⟩
  rw [ht]
  decide

/-- **C7 (amended).**  The first step of trim-to-text binarises the crop
with Otsu's automatic inverse threshold computed from the crop's own
histogram: exactly the pixels with intensity at most that (data-dependent)
threshold are marked dark. -/
theorem trimBinarize_spec (crop : List (List ℕ)) (r c : ℕ)
    (row : List ℕ) (px : ℕ) (hr : crop[r]? = some row)
    (hc : row[c]? = some px) :
    ((trimBinarize crop)[r]?.bind fun br => br[c]?)
      = some (decide (px ≤ otsuThreshold (crop.flatMap id))) := by
  simp only [trimBinarize]
  simp [List.getElem?_map, hr, hc]

/-- Witness for the amended C7 on the crop `[[10, 20]]`. -/
theorem trimBinarize_spec_witness :
    ((trimBinarize [[10, 20]])[0]?.bind fun br => br[1]?)
      = some (decide (20 ≤ otsuThreshold ([[10, 20]].flatMap id))) :=
  trimBinarize_spec [[10, 20]] 0 1 [10, 20] 20 rfl rfl

/-! ### Label text machinery (`_LABEL_RE`, `_run_tesseract`, `_ocr_crop`,
lines 363, 473-594)

Strings are handled as lists of characters.  `_LABEL_RE` is
`^(\d[\d,]*)([+\-x×÷/?])?$`; since the operator class and the
digit/comma class are disjoint, the greedy match is the unique one: the
value group is the longest leading run of digits and commas (starting
with a digit), optionally followed by exactly one operator character at
the very end.  `\d` is modelled as the ASCII digits. -/

/-- The character class `[\d,]` of the value group. -/
def isDigitComma (c : Char) : Bool := c.isDigit || c = ','

/-- The operator class `[+\-x×÷/?]` of `_LABEL_RE`. -/
def labelOpChars : List Char := ['+', '-', 'x', '×', '÷', '/', '?']

/-- `_LABEL_RE.match` on a character list:
`some (value, op?)` or `none`. -/
def labelMatchL (cs : List Char) : Option (List Char × Option Char) :=
  match cs with
  | [] => none
  | c :: _ =>
    if c.isDigit then
      let ds := cs.takeWhile isDigitComma
      match cs.dropWhile isDigitComma with
      | [] => some (ds, none)
      | [op] => if op ∈ labelOpChars then some (ds, some op) else none
      | _ :: _ :: _ => none
    else none

/-- `_LABEL_RE.match` on a string. -/
def labelMatch (s : String) : Option (String × Option Char) :=
  (labelMatchL s.data).map fun r => (String.mk r.1, r.2)

/-- The character cleaning of `_run_tesseract` (line 489-493): strip
spaces and newlines, fold `× ÷ −` to `x / -`, `X` to `x`, `O o Q` to `0`,
`l I` to `1`.  All replacements are single characters whose outputs are
never inputs of a later replacement, so the sequential `str.replace`
calls equal this single character map. -/
def cleanChar (c : Char) : Option Char :=
  if c = ' ' || c = '\n' then none
  else some (
    if c = '×' then 'x'
    else if c = '÷' then '/'
    else if c = '−' then '-'
    else if c = 'X' then 'x'
    else if c = 'O' || c = 'o' || c = 'Q' then '0'
    else if c = 'l' || c = 'I' then '1'
    else c)

def cleanOCRText (s : String) : String := String.mk (s.data.filterMap cleanChar)

/-- Dash-like characters folded to `-` in the trailing-operator salvage. -/
def dashLikeChars : List Char :=
  ['+', '-', '\u2212', '\u2013', '\u2014', '\u2012', '\u2015',
    '\u00ad', '\u2011', '_']

/-- Division-like characters folded to `/`. -/
def divLikeChars : List Char := ['/', '÷', '|', '\\']

/-- Multiplication-like characters folded to `x`. -/
def mulLikeChars : List Char := ['*', 'x', 'X', '×']

/-- The salvage step of `_run_tesseract` (lines 497-512): when the text is
a non-empty digit run followed by exactly one non-digit character, replace
that character by the canonical operator (or `?`). -/
def salvageText (cs : List Char) : Option (List Char) :=
  match cs.reverse with
  | [] => none
  | ch :: revds =>
    let ds := revds.reverse
    if ds ≠ [] ∧ ds.all Char.isDigit ∧ ¬ ch.isDigit then
      some (ds ++ [if ch ∈ dashLikeChars then '-'
        else if ch ∈ divLikeChars then '/'
        else if ch ∈ mulLikeChars then 'x'
        else '?'])
    else none

/-- One iteration of the per-config collection loop of `_run_tesseract`:
clean the raw output, parse it with `_LABEL_RE`, salvage on failure, and
either record the parse or remember the longest unparsable cleaned text. -/
def collectStep (acc : List (String × Option Char) × String)
    (t : Option String) : List (String × Option Char) × String :=
  match t with
  | none => acc
  | some t0 =>
    let text := cleanOCRText t0
    match labelMatchL text.data with
    | some r => (acc.1 ++ [(String.mk r.1, r.2)], acc.2)
    | none =>
      match salvageText text.data with
      | some cs2 =>
        match labelMatchL cs2 with
        | some r => (acc.1 ++ [(String.mk r.1, r.2)], acc.2)
        | none =>
          if cs2.length > acc.2.data.length then (acc.1, String.mk cs2)
          else acc
      | none =>
        if text.data.length > acc.2.data.length then (acc.1, text)
        else acc

/-- The per-config collection loop of `_run_tesseract`: each oracle entry
is the engine's raw output for one config (`none` models a config whose
OCR call threw and was skipped).  Returns the parsed `results` list in
order and the longest unparsable cleaned text (`best_raw`). -/
def collectResults (texts : List (Option String)) :
    List (String × Option Char) × String :=
  texts.foldl collectStep ([], "")

/-- Number of votes for a digit string among the parses. -/
def countVotes (results : List (String × Option Char)) (d : String) : ℕ :=
  results.countP fun r => r.1 == d

/-- Distinct elements in first-occurrence order (the iteration order of a
Python `Counter` / `dict`), with an explicit seen set so the recursion is
structural. -/
def dedupFirstAux {α : Type} [DecidableEq α] : List α → List α → List α
  | _, [] => []
  | seen, x :: xs =>
      if x ∈ seen then dedupFirstAux seen xs
      else x :: dedupFirstAux (x :: seen) xs

/-- Distinct elements in first-occurrence order. -/
def dedupFirst {α : Type} [DecidableEq α] (l : List α) : List α :=
  dedupFirstAux [] l

/-- Python `max(candidates, key=score)`: the first maximum wins. -/
def firstMaxBy {α : Type} (score : α → ℕ) : List α → Option α
  | [] => none
  | x :: xs =>
      some (xs.foldl (fun best d => if score d > score best then d else best) x)

/-- The walk over digit-string lengths, longest first (`_run_tesseract`
lines 533-539): within a length pick the most voted digit string, accept
it if it has at least two votes or the length is the smallest present. -/
def pickBestDigits (results : List (String × Option Char))
    (keys : List String) (minLen : ℕ) : List ℕ → String
  | [] => ""
  | l0 :: rest =>
      let candidates := keys.filter fun k => k.data.length = l0
      match firstMaxBy (countVotes results) candidates with
      | none => pickBestDigits results keys minLen rest
      | some top =>
          if countVotes results top ≥ 2 ∨ l0 = minLen then top
          else pickBestDigits results keys minLen rest

/-- The distinct recognised digit strings, in first-seen order
(`counts = Counter(...)` at line 530). -/
def voteKeys (results : List (String × Option Char)) : List String :=
  dedupFirst (results.map Prod.fst)

/-- The distinct digit-string lengths, in first-seen order. -/
def voteLens (results : List (String × Option Char)) : List ℕ :=
  dedupFirst ((voteKeys results).map fun k => k.data.length)

/-- The minimal digit-string length present. -/
def voteMinLen (results : List (String × Option Char)) : ℕ :=
  match voteLens results with
  | [] => 0
  | x :: xs => xs.foldl Nat.min x

/-- The digit vote of `_run_tesseract` (lines 529-541): walk lengths from
longest to shortest, accept a twice-voted winner (or any winner at the
smallest length); fall back to the overall plurality winner. -/
def voteDigits (results : List (String × Option Char)) : String :=
  let bd := pickBestDigits results (voteKeys results) (voteMinLen results)
    (List.insertionSort (fun a b => a ≥ b) (voteLens results))
  if bd = "" then (firstMaxBy (countVotes results) (voteKeys results)).getD ""
  else bd

/-- The real (non-`?`) operators seen alongside the winning digits
(line 544). -/
def realOpsOf (results : List (String × Option Char))
    (bestDigits : String) : List Char :=
  results.filterMap fun r =>
    match r.2 with
    | some c => if r.1 = bestDigits ∧ c ≠ '?' then some c else none
    | none => none

/-- The voting tail of `_run_tesseract` (lines 529-555) on a non-empty
parse list. -/
def voteResult (results : List (String × Option Char)) : String :=
  let bestDigits := voteDigits results
  match realOpsOf results bestDigits with
  | _ :: _ =>
    let top := (firstMaxBy (fun c => (realOpsOf results bestDigits).countP (· == c))
      (realOpsOf results bestDigits)).getD '?'
    bestDigits ++ String.mk [top]
  | [] =>
    let noOpCount := (results.filter fun r =>
      r.1 == bestDigits && r.2.isNone).length
    let fallbackOps := (results.filter fun r =>
      r.1 == bestDigits && r.2 == some '?').length
    if fallbackOps > noOpCount then bestDigits ++ "?" else bestDigits

/-- `_run_tesseract` (lines 473-555): clean and parse every config's
output, then vote. -/
def runTesseract (texts : List (Option String)) : String :=
  let col := collectResults texts
  match col.1 with
  | [] => col.2
  | _ :: _ => voteResult col.1

/-- The `"0" → "9"` post-recognition correction of `_ocr_crop`
(lines 585-594): fires only when the matched value group is exactly the
string `"0"`; the operator suffix is preserved. -/
def applyZeroNine (result : String) : String :=
  match labelMatch result with
  | some (v, op) =>
      if v = "0" then
        "9" ++ (match op with | some c => String.mk [c] | none => "")
      else result
  | none => result

/-- `_ocr_crop` on a crop that passed the size gates: run the engine over
the eight configs (the oracle gives the raw outputs), vote, and apply the
`"0" → "9"` correction. -/
def ocrCropM (texts : List (Option String)) : String :=
  applyZeroNine (runTesseract texts)

/-! ### Parsing a cage label (`_read_cage_labels`, lines 801-811) -/

/-- The per-cage parse of `_read_cage_labels`: full `_LABEL_RE` match,
else the digit-prefix salvage (`re.match("[\d,]+", raw)` with the next
character as operator when it is one of `+ - x / ?`), else the
`("?", None)` fallback. -/
def parseCageLabel (raw : String) : String × Option Char :=
  match labelMatchL raw.data with
  | some r => (String.mk r.1, r.2)
  | none =>
    match raw.data with
    | [] => ("?", none)
    | c :: _ =>
      if c.isDigit then
        let val := raw.data.takeWhile isDigitComma
        let rest := raw.data.dropWhile isDigitComma
        (String.mk val,
          match rest with
          | r :: _ => if r ∈ ['+', '-', 'x', '/', '?'] then some r else none
          | [] => none)
      else ("?", none)

/-! ### `_detect_trailing_operator` (lines 622-716)

The geometric work (contours, bounding boxes) depends on the image and is
abstracted into oracle inputs; the classification logic — vote filtering,
majority vote, and the shape fallback — is translated from the source. -/

/-- One config's vote inside `_detect_trailing_operator` (lines 676-688):
fold the raw glyphs, keep only a single character from `+ - x /`. -/
def opVoteOf (t : Option String) : Option Char :=
  match t with
  | none => none
  | some t0 =>
    let t1 := t0.data.map fun c =>
      if c = '×' then 'x' else if c = '÷' then '/'
      else if c = '−' then '-' else c
    match t1 with
    | [c] => if c ∈ ['+', '-', 'x', '/'] then some c else none
    | _ => none

/-- `_detect_trailing_operator`, given the oracle data: `gate` models all
the early `return None` geometry checks, `votes` the raw single-character
OCR outputs per config, and `aspect`/`hFill`/`vFill` the measured shape
numbers. -/
def detectTrailingOperator (gate : Bool) (votes : List (Option String))
    (aspect hFill vFill : Frac) : Option Char :=
  if ¬ gate then none
  else
    let vs := votes.filterMap opVoteOf
    match vs with
    | _ :: _ => (firstMaxBy (fun c => vs.countP (· == c)) vs).getD '+'
    | [] =>
      if (Frac.blt ⟨3, 5⟩ aspect) && (Frac.blt aspect ⟨8, 5⟩) then
        if (Frac.blt ⟨1, 2⟩ hFill) && (Frac.blt ⟨1, 2⟩ vFill) then some '+'
        else none
      else if Frac.blt ⟨2, 1⟩ aspect then some '-'
      else none

/-! ### `_read_cage_labels` (lines 719-918)

Crop extraction and the OCR engine are image-dependent; they are
abstracted into a `LabelOracle` giving, for each retry site, either
`none` (the crop was degenerate and skipped) or the raw engine outputs
for the eight configs.  All the control flow — margin retries, the
two-digit retry pass, the operator-recovery pass with its three
strategies — is translated from the source. -/

structure LabelOracle where
  /-- `min(cellH, cellW) < 50`: the grid was pre-upscaled (enables the
  two-digit retry pass). -/
  smallCells : Bool
  /-- Initial label crop of each cage: `none` models `crop.size == 0`. -/
  init : ℕ → Option (List (Option String))
  /-- Wider-margin retries (cage index, margin step). -/
  mretry : ℕ → ℕ → Option (List (Option String))
  /-- Two-digit 3×-upscale retries (cage index, margin). -/
  p1 : ℕ → ℕ → Option (List (Option String))
  /-- Operator-recovery retries (cage index, scale, margin). -/
  p2 : ℕ → ℕ → ℕ → Option (List (Option String))
  /-- `_extract_label_crop` returned a usable crop. -/
  opCropOk : ℕ → Bool
  /-- The geometry gates inside `_detect_trailing_operator` passed. -/
  opGate : ℕ → Bool
  /-- Raw single-character OCR outputs for the operator crop. -/
  opVotes : ℕ → List (Option String)
  opAspect : ℕ → Frac
  opHFill : ℕ → Frac
  opVFill : ℕ → Frac

/-- The wider-margin retry loop (lines 784-800): take the first retry
whose OCR output matches `_LABEL_RE`; otherwise keep the original text. -/
def tryMargins (o : LabelOracle) (idx : ℕ) : List ℕ → String → String
  | [], raw => raw
  | k :: ks, raw =>
    match o.mretry idx k with
    | none => tryMargins o idx ks raw
    | some texts =>
      let raw2 := ocrCropM texts
      if (labelMatchL raw2.data).isSome then raw2
      else tryMargins o idx ks raw

/-- First pass over one cage: initial crop, margin retries, parse. -/
def readLabelPhaseA (o : LabelOracle) (idx : ℕ) : String × Option Char :=
  match o.init idx with
  | none => ("?", none)
  | some texts0 =>
    let raw0 := ocrCropM texts0
    let raw :=
      if (labelMatchL raw0.data).isSome then raw0
      else tryMargins o idx [2, 3, 4] raw0
    parseCageLabel raw

/-- The two-digit 3×-retry loop of post-processing pass 1
(lines 825-846). -/
def pass1Try (o : LabelOracle) (idx : ℕ) (vop : String × Option Char) :
    List ℕ → String × Option Char
  | [] => vop
  | m :: ms =>
    match o.p1 idx m with
    | none => pass1Try o idx vop ms
    | some texts =>
      match labelMatchL (ocrCropM texts).data with
      | some r =>
        if r.1.length > vop.1.data.length then
          if (match vop.2, r.2 with
              | some opc, some hic => hic != opc
              | _, _ => false) then
            pass1Try o idx vop ms
          else
            (String.mk r.1, match r.2 with | some h => some h | none => vop.2)
        else pass1Try o idx vop ms
      | none => pass1Try o idx vop ms

/-- Pass 1 on one cage: only two-digit values are retried. -/
def pass1Fix (o : LabelOracle) (idx : ℕ) (vop : String × Option Char) :
    String × Option Char :=
  if vop.1 = "" ∨ vop.1 = "?" ∨ vop.1.data.length ≠ 2 then vop
  else pass1Try o idx vop [3, 4]

/-- Strategy 2 of the operator-recovery pass (lines 877-904): retry at
4× and 6× with margins 2, 3, 4; accept only a real operator, and for
short values only if the digits are unchanged. -/
def pass2Try (o : LabelOracle) (idx : ℕ) (vop : String × Option Char) :
    List (ℕ × ℕ) → Option (String × Option Char)
  | [] => none
  | (sc, m) :: rest =>
    match o.p2 idx sc m with
    | none => pass2Try o idx vop rest
    | some texts =>
      match labelMatchL (ocrCropM texts).data with
      | some r =>
        match r.2 with
        | some opc =>
          if opc ≠ '?' then
            if vop.1.data.length ≤ 2 ∧ String.mk r.1 ≠ vop.1 then
              pass2Try o idx vop rest
            else some (String.mk r.1, some opc)
          else pass2Try o idx vop rest
        | none => pass2Try o idx vop rest
      | none => pass2Try o idx vop rest

/-- The operator-recovery pass (post-processing pass 2, lines 848-918)
applied to one cage. -/
def pass2Fix (o : LabelOracle) (idx : ℕ) (cells : List Cell)
    (vop : String × Option Char) : String × Option Char :=
  if cells.length ≤ 1 ∨ vop.2.isSome then vop
  else if vop.1 ≠ "" ∧ vop.1.data.length ≥ 2 ∧
      (vop.1.data.getLast? = some '0' ∨ vop.1.data.getLast? = some '4') then
    (String.mk vop.1.data.dropLast, some '+')
  else
    match pass2Try o idx vop [(4, 2), (4, 3), (4, 4), (6, 2), (6, 3), (6, 4)] with
    | some new => new
    | none =>
      if o.opCropOk idx then
        match detectTrailingOperator (o.opGate idx) (o.opVotes idx)
            (o.opAspect idx) (o.opHFill idx) (o.opVFill idx) with
        | some d => (vop.1, some d)
        | none => vop
      else vop

/-- `_read_cage_labels` without the engine-availability check. -/
def readCageLabelsCore (o : LabelOracle) (cages : List (List Cell)) :
    List (String × Option Char) :=
  let resultsA := (List.range cages.length).map (readLabelPhaseA o)
  let resultsB :=
    if o.smallCells then resultsA.mapIdx fun idx vop => pass1Fix o idx vop
    else resultsA
  let zipped := resultsB.zip cages
  let multiWithOp := (zipped.filter fun rc =>
    decide (rc.2.length > 1) && rc.1.2.isSome).length
  let multiWithoutOp := (zipped.filter fun rc =>
    decide (rc.2.length > 1) && !rc.1.2.isSome).length
  if ¬ (multiWithOp > multiWithoutOp) then resultsB
  else zipped.mapIdx fun idx rc => pass2Fix o idx rc.2 rc.1

/-- Failures the tool reports before producing a document. -/
inductive PipelineError
  | cannotReadImage
  | gridNotFound
  | tesseractMissing
deriving DecidableEq, Repr

/-- `_read_cage_labels` including `_require_tesseract` (line 727): the
engine check runs first and aborts the tool when the engine is absent. -/
def readCageLabelsE (tess : Bool) (o : LabelOracle)
    (cages : List (List Cell)) :
    Except PipelineError (List (String × Option Char)) :=
  if tess then .ok (readCageLabelsCore o cages)
  else .error .tesseractMissing

/-! ### Result assembly (`ocr_mathdoku` step 7, lines 958-976) -/

/-- A cage value in the output document: an integer when the recognised
value is all digits, the raw string otherwise. -/
inductive CageValue
  | int (n : ℕ)
  | str (s : String)
deriving DecidableEq, Repr

/-- Python `str.isdigit` restricted to ASCII digits. -/
def pyIsDigit (s : String) : Bool := s ≠ "" && s.data.all Char.isDigit

/-- Python `int` on an all-digit string. -/
def pyInt (s : String) : ℕ :=
  s.data.foldl (fun acc c => 10 * acc + (c.toNat - 48)) 0

/-- `entry["value"] = int(value) if value.isdigit() else value`. -/
def emitValue (value : String) : CageValue :=
  if pyIsDigit value then .int (pyInt value) else .str value

/-- A1-style cell reference (`_cell_a1`, line 65). -/
def cellA1 (rc : Cell) : String :=
  String.mk [Char.ofNat (65 + rc.2)] ++ toString (rc.1 + 1)

structure CageEntry where
  cells : List String
  value : CageValue
  op : Option Char
deriving DecidableEq, Repr

structure PuzzleResult where
  size : ℕ
  difficulty : String
  operations : Bool
  cages : List CageEntry
deriving DecidableEq, Repr

/-- Step 7 of `ocr_mathdoku`: build the output document.  `operations`
becomes true whenever any zipped cage's label carries an operator. -/
def buildResult (n : ℕ) (cages : List (List Cell))
    (labels : List (String × Option Char)) : PuzzleResult :=
  let zipped := cages.zip labels
  { size := n
    difficulty := "?"
    operations := zipped.any fun cl => cl.2.2.isSome
    cages := zipped.map fun cl =>
      { cells := cl.1.map cellA1
        value := emitValue cl.2.1
        op := cl.2.2 } }

/-! ### Pipeline stage ordering (`ocr_mathdoku`, lines 923-976; `main`)

For the ordering claim the image-dependent stage bodies are abstracted
into an oracle; the sequence of calls and the position of the
`_require_tesseract` check (first statement of `_read_cage_labels`,
line 727) are translated from the source. -/

structure GridBBox where
  x : ℤ
  y : ℤ
  w : ℤ
  h : ℤ

structure ImageOracle where
  /-- `cv2.imread` succeeded. -/
  imageOk : Bool
  /-- `_find_grid_bbox` result (`none` = `GridNotFound`). -/
  gridBbox : Option GridBBox
  /-- `_detect_line_positions` result. -/
  lineCands : List ℤ × List ℤ
  /-- `_classify_borders` result. -/
  hThick : Cell → Bool
  vThick : Cell → Bool
  /-- The label-reading oracle. -/
  label : LabelOracle

inductive Stage
  | gridLocalization
  | latticeDetection
  | sizeSelection
  | borderClassification
  | cageGrouping
  | labelReading
deriving DecidableEq, Repr

/-- `ocr_mathdoku` with a trace of the image-processing stages that ran
before the result (or failure) was produced.  `group_cages` is total for
the fuel it is given (see `group_cages_spec`); `getD []` discharges the
`Option`. -/
def ocrMathdokuTrace (tess : Bool) (io : ImageOracle) (nForced : Option ℕ) :
    List Stage × Except PipelineError PuzzleResult :=
  if ¬ io.imageOk then ([], .error .cannotReadImage)
  else
    match io.gridBbox with
    | none => ([.gridLocalization], .error .gridNotFound)
    | some bb =>
      let dsl := detectSizeAndLines io.lineCands.1 io.lineCands.2 bb.h bb.w
        nForced
      let n := dsl.1
      let cages := (group_cages n io.hThick io.vThick).getD []
      let t5 : List Stage := [.gridLocalization, .latticeDetection,
        .sizeSelection, .borderClassification, .cageGrouping]
      if ¬ tess then (t5, .error .tesseractMissing)
      else
        (t5 ++ [.labelReading],
          .ok (buildResult n cages (readCageLabelsCore io.label cages)))

/-! ### C8: the `"0" → "9"` correction -/

/-- **C8.** The correction fires exactly on a matched value group that is
the one-character string `"0"` (preserving the operator suffix); any
other recognised string — matching with a different value, or not
matching at all — is left unchanged. -/
theorem applyZeroNine_spec (r : String) :
    (∀ op, labelMatch r = some ("0", op) →
      applyZeroNine r = "9" ++ (match op with
        | some c => String.mk [c]
        | none => "")) ∧
    (∀ v op, labelMatch r = some (v, op) → v ≠ "0" → applyZeroNine r = r) ∧
    (labelMatch r = none → applyZeroNine r = r) := by
  refine ⟨?_, ?_, ?_⟩
  · intro op h
    simp [applyZeroNine, h]
  · intro v op h hv
    simp [applyZeroNine, h, hv]
  · intro h
    simp [applyZeroNine, h]

/-- Witness for C8: `"0x"` becomes `"9x"`, `"10"` and `"0,"` stay. -/
theorem applyZeroNine_witness :
    applyZeroNine "0x" = "9" ++ String.mk ['x'] ∧
      applyZeroNine "10" = "10" ∧ applyZeroNine "0," = "0," :=
  ⟨(applyZeroNine_spec "0x").1 (some 'x') (by decide),
   (applyZeroNine_spec "10").2.1 "10" none (by decide) (by decide),
   (applyZeroNine_spec "0,").2.1 "0," none (by decide) (by decide)⟩

/-! ### C9: value emission -/

/-- **C9 counterexample.**  A raw OCR text `"0a"` is salvaged by the
label reader to the value `"0"` with no operator; the emission step
converts any all-digit value with `int`, so the cage value `0` *is*
emitted as the integer 0 (the `"0" → "9"` correction does not guard this
path). -/
theorem value_zero_counterexample :
    parseCageLabel "0a" = ("0", none) ∧
      emitValue "0" = CageValue.int 0 ∧
      (buildResult 4 [[(0, 0), (0, 1)]] [("0", none)]).cages
        = [⟨["A1", "B1"], CageValue.int 0, none⟩] := by
  refine ⟨by decide, by decide, by decide⟩

/-- **C9 (amended).**  A recognised value is passed through as a string
iff it is not a non-empty all-digit string (Python `str.isdigit`);
all-digit values — including `"0"` — are emitted as integers. -/
theorem emitValue_spec (value : String) :
    (pyIsDigit value = false → emitValue value = CageValue.str value) ∧
    (pyIsDigit value = true → emitValue value = CageValue.int (pyInt value)) := by
  constructor <;> intro h <;> simp [emitValue, h]

/-- Witness for the amended C9. -/
theorem emitValue_spec_witness :
    emitValue "12,3" = CageValue.str "12,3" ∧
      emitValue "8" = CageValue.int (pyInt "8") :=
  ⟨(emitValue_spec "12,3").1 (by decide), (emitValue_spec "8").2 (by decide)⟩

/-! ### C2: the `operations` flag -/

/-- A concrete oracle: cage 0 reads `"3+"`, cage 1 reads `"5"`. -/
def oracleC2 : LabelOracle where
  smallCells := false
  init := fun i => if i = 0 then some [some "3+"] else some [some "5"]
  mretry := fun _ _ => none
  p1 := fun _ _ => none
  p2 := fun _ _ _ => none
  opCropOk := fun _ => false
  opGate := fun _ => false
  opVotes := fun _ => []
  opAspect := fun _ => Frac.ofInt 0
  opHFill := fun _ => Frac.ofInt 0
  opVFill := fun _ => Frac.ofInt 0

/-- **C2 counterexample.**  A singleton cage whose label carries `+` and
one multi-cell cage without an operator: the label reader produces these
labels, and the emitted document has `operations = true` although no
multi-cell cage carries an operator. -/
theorem operations_counterexample :
    readCageLabelsCore oracleC2 [[(0, 0)], [(0, 1), (0, 2)]]
        = [("3", some '+'), ("5", none)] ∧
      (buildResult 3 [[(0, 0)], [(0, 1), (0, 2)]]
        [("3", some '+'), ("5", none)]).operations = true ∧
      ∀ e ∈ (buildResult 3 [[(0, 0)], [(0, 1), (0, 2)]]
          [("3", some '+'), ("5", none)]).cages,
        2 ≤ e.cells.length → e.op = none := by
  refine ⟨by decide, by decide, by decide⟩

/-- **C2 (amended).**  `operations` in the emitted document is true iff
at least one emitted cage — of any size — carries an operator. -/
theorem operations_spec (n : ℕ) (cages : List (List Cell))
    (labels : List (String × Option Char)) :
    (buildResult n cages labels).operations = true ↔
      ∃ e ∈ (buildResult n cages labels).cages, e.op.isSome := by
  simp only [buildResult, List.any_eq_true, List.mem_map]
  constructor
  · rintro ⟨cl, hcl, hop⟩
    exact ⟨_, ⟨cl, hcl, rfl⟩, hop⟩
  · rintro ⟨e, ⟨cl, hcl, rfl⟩, hop⟩
    exact ⟨cl, hcl, hop⟩

/-! ### C5: the trailing `0`/`4` → `+` correction -/

/-- An oracle that yields nothing on every retry site. -/
def oracleEmpty : LabelOracle where
  smallCells := false
  init := fun _ => none
  mretry := fun _ _ => none
  p1 := fun _ _ => none
  p2 := fun _ _ _ => none
  opCropOk := fun _ => false
  opGate := fun _ => false
  opVotes := fun _ => []
  opAspect := fun _ => Frac.ofInt 0
  opHFill := fun _ => Frac.ofInt 0
  opVFill := fun _ => Frac.ofInt 0

/-- Oracle for the C5 counterexample: three cages reading `"7+"`, `"9+"`
and `"4"`. -/
def oracleC5 : LabelOracle where
  smallCells := false
  init := fun i =>
    if i = 0 then some [some "7+"]
    else if i = 1 then some [some "9+"] else some [some "4"]
  mretry := fun _ _ => none
  p1 := fun _ _ => none
  p2 := fun _ _ _ => none
  opCropOk := fun _ => false
  opGate := fun _ => false
  opVotes := fun _ => []
  opAspect := fun _ => Frac.ofInt 0
  opHFill := fun _ => Frac.ofInt 0
  opVFill := fun _ => Frac.ofInt 0

/-- **C5 counterexample.**  In an operations-shown puzzle (two of the
three multi-cell cages carry `+`), a multi-cell cage whose value is the
single digit `"4"` — whose last digit is `4` — is *not* rewritten to
`("", +)`: the correction requires the value to have at least two
characters, so the cage keeps `("4", none)`. -/
theorem digit_to_plus_counterexample :
    readCageLabelsCore oracleC5
        [[(0, 0), (0, 1)], [(1, 0), (1, 1)], [(2, 0), (2, 1)]]
      = [("7", some '+'), ("9", some '+'), ("4", none)] := by
  decide

/-- **C5 (amended).**  In the operator-recovery pass, a multi-cell cage
still missing an operator whose value has at least two characters and
ends in `0` or `4` has that last character stripped and the operator set
to `+`; one-character values are left to the later strategies. -/
theorem digit_to_plus_spec (o : LabelOracle) (idx : ℕ) (cells : List Cell)
    (v : String) (hmulti : 1 < cells.length) (hlen : 2 ≤ v.data.length)
    (hlast : v.data.getLast? = some '0' ∨ v.data.getLast? = some '4') :
    pass2Fix o idx cells (v, none) = (String.mk v.data.dropLast, some '+') := by
  have hne : v ≠ "" := by
    intro h
    rw [h] at hlen
    simp at hlen
  rw [pass2Fix]
  rw [if_neg (by simp; omega)]
  rw [if_pos ⟨hne, hlen, hlast⟩]

/-- Witness for the amended C5 at value `"80"`. -/
theorem digit_to_plus_spec_witness :
    pass2Fix oracleEmpty 0 [(0, 0), (0, 1)] ("80", none)
      = (String.mk "80".data.dropLast, some '+') :=
  digit_to_plus_spec oracleEmpty 0 [(0, 0), (0, 1)] "80" (by decide)
    (by decide) (by decide)

/-! ### C10: the digit-prefix salvage of the label reader -/

/-- **C10.**  When the cleaned text fails `_LABEL_RE` but starts with a
digit, the label reader salvages: the value is the longest leading run of
digits and commas (the characters after it start with a non-member of
that class), and the operator is the immediately following character
exactly when it is one of `+ - x / ?`; the fallback `("?", none)` arises
only from an empty text or one starting with a non-digit. -/
theorem parseCageLabel_spec (raw : String)
    (hfail : labelMatchL raw.data = none) :
    (∀ c cs, raw.data = c :: cs → c.isDigit = true →
      ∃ val rest, raw.data = val ++ rest ∧
        parseCageLabel raw = (String.mk val,
          match rest.head? with
          | some r => if r ∈ ['+', '-', 'x', '/', '?'] then some r else none
          | none => none) ∧
        (∀ d ∈ val, isDigitComma d = true) ∧
        (∀ r, rest.head? = some r → isDigitComma r = false)) ∧
    (parseCageLabel raw = ("?", none) →
      raw.data = [] ∨ ∃ c cs, raw.data = c :: cs ∧ c.isDigit = false) := by
  have hA : ∀ c cs, raw.data = c :: cs → c.isDigit = true →
      ∃ val rest, raw.data = val ++ rest ∧
        parseCageLabel raw = (String.mk val,
          match rest.head? with
          | some r => if r ∈ ['+', '-', 'x', '/', '?'] then some r else none
          | none => none) ∧
        (∀ d ∈ val, isDigitComma d = true) ∧
        (∀ r, rest.head? = some r → isDigitComma r = false) := by
    intro c cs hraw hd
    refine ⟨raw.data.takeWhile isDigitComma, raw.data.dropWhile isDigitComma,
      (List.takeWhile_append_dropWhile _ _).symm, ?_,
      fun d hdm => List.mem_takeWhile_imp hdm, ?_⟩
    · simp only [parseCageLabel, hfail]
      rw [hraw]
      simp only [hd, if_pos]
      cases hdw : List.dropWhile isDigitComma (c :: cs) <;> simp [hdw]
    · intro r hr
      have hh := List.head?_dropWhile_not isDigitComma raw.data
      rw [hr] at hh
      simpa using hh
  refine ⟨hA, ?_⟩
  intro hparse
  match hraw : raw.data with
  | [] => exact Or.inl rfl
  | c :: cs =>
    refine Or.inr ⟨c, cs, rfl, ?_⟩
    by_contra hd
    have hd' : c.isDigit = true := by
      cases h : c.isDigit
      · exact absurd h hd
      · rfl
    obtain ⟨val, rest, _, heq, hmem, _⟩ := hA c cs hraw hd'
    rw [heq] at hparse
    have hval : String.mk val = "?" := congrArg Prod.fst hparse
    have hval' : val = ['?'] := congrArg String.data hval
    have : isDigitComma '?' = true := hmem '?' (by rw [hval']; exact List.mem_singleton_self _)
    simp [isDigitComma] at this

/-- Witness for C10 on the text `"12a?"`. -/
theorem parseCageLabel_spec_witness :
    ∃ val rest, "12a?".data = val ++ rest ∧
      parseCageLabel "12a?" = (String.mk val,
        match rest.head? with
        | some r => if r ∈ ['+', '-', 'x', '/', '?'] then some r else none
        | none => none) ∧
      (∀ d ∈ val, isDigitComma d = true) ∧
      (∀ r, rest.head? = some r → isDigitComma r = false) :=
  (parseCageLabel_spec "12a?" (by decide)).1 '1' ['2', 'a', '?']
    (by decide) (by decide)

/-! ### C6: the allowed-operator invariant

The raw glyphs `× ÷ −` can enter only through the engine's raw output:
the cleaning step of `_run_tesseract` folds them to `x / -`, and every
later operator source is filtered against an explicit character list.
`NotBad` states the absence of the raw glyphs from a character list;
`OpAllowed` states the claim's property of one recognised label. -/

/-- The raw glyphs that must never reach the output. -/
def badChars : List Char := ['×', '÷', '−']

/-- The operator alphabet of the emitted document. -/
def allowedOps : List Char := ['+', '-', 'x', '/', '?']

/-- No raw glyph occurs among the characters. -/
def NotBad (cs : List Char) : Prop := ∀ c ∈ cs, c ∉ badChars

/-- The label's operator, when present, is in the emitted alphabet. -/
def OpAllowed (vop : String × Option Char) : Prop :=
  ∀ c, vop.2 = some c → c ∈ allowedOps

theorem cleanChar_good {a c : Char} (h : cleanChar a = some c) :
    c ∉ badChars := by
  intro hc
  simp only [badChars, List.mem_cons, List.not_mem_nil, or_false] at hc
  unfold cleanChar at h
  split_ifs at h <;>
    first
      | (injection h with h; subst h; revert hc; decide)
      | exact Option.noConfusion h
      | (injection h with h; subst h;
         rcases hc with rfl | rfl | rfl <;> simp_all)

theorem digit_good {c : Char} (h : c.isDigit = true) : c ∉ badChars := by
  intro hc
  simp only [badChars, List.mem_cons, List.not_mem_nil, or_false] at hc
  rcases hc with rfl | rfl | rfl <;> exact absurd h (by decide)

theorem digitComma_good {c : Char} (h : isDigitComma c = true) :
    c ∉ badChars := by
  simp only [isDigitComma, Bool.or_eq_true, decide_eq_true_eq] at h
  rcases h with h | rfl
  · exact digit_good h
  · decide

theorem cleanOCRText_good (s : String) : NotBad (cleanOCRText s).data := by
  intro c hc
  have hc' : c ∈ s.data.filterMap cleanChar := hc
  obtain ⟨a, -, ha⟩ := List.mem_filterMap.mp hc'
  exact cleanChar_good ha

theorem labelMatchL_some {cs v : List Char} {op : Option Char}
    (h : labelMatchL cs = some (v, op)) :
    v = cs.takeWhile isDigitComma ∧
      ∀ c, op = some c → c ∈ labelOpChars ∧ c ∈ cs := by
  match cs with
  | [] => exact absurd h (by simp [labelMatchL])
  | c0 :: cs0 =>
    rw [labelMatchL] at h
    split_ifs at h with hd
    split at h
    · simp only [Option.some.injEq, Prod.mk.injEq] at h
      refine ⟨h.1.symm, ?_⟩
      intro c hc
      rw [← h.2] at hc
      cases hc
    · rename_i o1 heq
      split_ifs at h with ho
      simp only [Option.some.injEq, Prod.mk.injEq] at h
      refine ⟨h.1.symm, ?_⟩
      intro c hc
      rw [← h.2] at hc
      injection hc with hc
      subst hc
      refine ⟨ho, (List.dropWhile_sublist isDigitComma).subset ?_⟩
      rw [heq]
      exact List.mem_cons_self o1 []
    · cases h

theorem labelMatchL_val_good {cs v : List Char} {op : Option Char}
    (h : labelMatchL cs = some (v, op)) : NotBad v := by
  intro d hd
  have hv := (labelMatchL_some h).1
  exact digitComma_good (List.mem_takeWhile_imp (hv ▸ hd))

theorem op_allowed_of_notBad {c : Char} (h1 : c ∈ labelOpChars)
    (h2 : c ∉ badChars) : c ∈ allowedOps := by
  simp only [labelOpChars, List.mem_cons, List.not_mem_nil, or_false] at h1
  rcases h1 with rfl | rfl | rfl | rfl | rfl | rfl | rfl <;>
    first
      | decide
      | exact absurd (by decide) h2

theorem labelMatchL_op_good {cs v : List Char} {c : Char}
    (hnb : NotBad cs) (h : labelMatchL cs = some (v, some c)) :
    c ∈ allowedOps := by
  obtain ⟨h1, h2⟩ := (labelMatchL_some h).2 c rfl
  exact op_allowed_of_notBad h1 (hnb c h2)

theorem salvageText_good {cs cs2 : List Char}
    (h : salvageText cs = some cs2) : NotBad cs2 := by
  unfold salvageText at h
  split at h
  · cases h
  · rename_i ch revds heq
    by_cases hcond : revds.reverse ≠ [] ∧
        revds.reverse.all Char.isDigit = true ∧ ¬ ch.isDigit = true
    · rw [if_pos hcond] at h
      obtain ⟨-, hall, -⟩ := hcond
      injection h with h
      subst h
      intro c hc
      rcases List.mem_append.mp hc with hcd | hco
      · exact digit_good (List.all_eq_true.mp hall c hcd)
      · rw [List.mem_singleton] at hco
        subst hco
        split_ifs <;> decide
    · rw [if_neg hcond] at h
      cases h

theorem foldl_inv {α β : Type} (P : α → Prop) (f : α → β → α)
    (hstep : ∀ a b, P a → P (f a b)) :
    ∀ (l : List β) (s : α), P s → P (l.foldl f s)
  | [], _, hs => hs
  | b :: l, s, hs => foldl_inv P f hstep l (f s b) (hstep s b hs)

/-- Every recognised `(value, op)` has a glyph-free value and an operator
in the emitted alphabet. -/
def GoodResult (r : String × Option Char) : Prop :=
  NotBad r.1.data ∧ ∀ c, r.2 = some c → c ∈ allowedOps

theorem collectStep_good (acc : List (String × Option Char) × String)
    (t : Option String)
    (h : (∀ r ∈ acc.1, GoodResult r) ∧ NotBad acc.2.data) :
    (∀ r ∈ (collectStep acc t).1, GoodResult r) ∧
      NotBad (collectStep acc t).2.data := by
  obtain ⟨h1, h2⟩ := h
  cases t with
  | none => exact ⟨h1, h2⟩
  | some t0 =>
    simp only [collectStep]
    rcases hm : labelMatchL (cleanOCRText t0).data with _ | ⟨v, op⟩ <;>
      simp only [hm]
    · rcases hs : salvageText (cleanOCRText t0).data with _ | cs2 <;>
        simp only [hs]
      · split_ifs
        · exact ⟨h1, cleanOCRText_good t0⟩
        · exact ⟨h1, h2⟩
      · rcases hm2 : labelMatchL cs2 with _ | ⟨v2, op2⟩ <;> simp only [hm2]
        · split_ifs
          · exact ⟨h1, salvageText_good hs⟩
          · exact ⟨h1, h2⟩
        · refine ⟨?_, h2⟩
          intro r hr
          rcases List.mem_append.mp hr with hr' | hr'
          · exact h1 r hr'
          · rcases List.mem_singleton.mp hr' with rfl
            refine ⟨labelMatchL_val_good hm2, ?_⟩
            intro c hc
            have hc' : op2 = some c := hc
            rw [hc'] at hm2
            exact labelMatchL_op_good (salvageText_good hs) hm2
    · refine ⟨?_, h2⟩
      intro r hr
      rcases List.mem_append.mp hr with hr' | hr'
      · exact h1 r hr'
      · rcases List.mem_singleton.mp hr' with rfl
        refine ⟨labelMatchL_val_good hm, ?_⟩
        intro c hc
        have hc' : op = some c := hc
        rw [hc'] at hm
        exact labelMatchL_op_good (cleanOCRText_good t0) hm

theorem collectResults_good (texts : List (Option String)) :
    (∀ r ∈ (collectResults texts).1, GoodResult r) ∧
      NotBad (collectResults texts).2.data := by
  simp only [collectResults]
  refine foldl_inv
    (fun acc => (∀ r ∈ acc.1, GoodResult r) ∧ NotBad acc.2.data)
    collectStep collectStep_good texts ([], "") ?_
  refine ⟨by simp, ?_⟩
  intro c hc
  cases hc

theorem notBad_append {l1 l2 : List Char} (h1 : NotBad l1)
    (h2 : NotBad l2) : NotBad (l1 ++ l2) := by
  intro c hc
  rcases List.mem_append.mp hc with h | h
  exacts [h1 c h, h2 c h]

theorem allowed_notBad {c : Char} (h : c ∈ allowedOps) : c ∉ badChars := by
  simp only [allowedOps, List.mem_cons, List.not_mem_nil, or_false] at h
  rcases h with rfl | rfl | rfl | rfl | rfl <;> decide

theorem foldl_pick_mem {α : Type} (score : α → ℕ) :
    ∀ (xs : List α) (x : α),
      xs.foldl (fun best d => if score d > score best then d else best) x ∈
        x :: xs
  | [], x => List.mem_cons_self x []
  | y :: ys, x => by
    have h := foldl_pick_mem score ys (if score y > score x then y else x)
    simp only [List.foldl_cons]
    rcases List.mem_cons.mp h with h' | h'
    · rw [h']
      split_ifs <;> simp
    · simp [h']

theorem firstMaxBy_mem {α : Type} (score : α → ℕ) {l : List α} {y : α}
    (h : firstMaxBy score l = some y) : y ∈ l := by
  match l with
  | [] => cases h
  | x :: xs =>
    simp only [firstMaxBy] at h
    injection h with h
    exact h ▸ foldl_pick_mem score xs x

theorem dedupFirstAux_subset {α : Type} [DecidableEq α] :
    ∀ (seen l : List α) (y : α), y ∈ dedupFirstAux seen l → y ∈ l
  | _, [], _, h => absurd h (List.not_mem_nil _)
  | seen, x :: xs, y, h => by
    simp only [dedupFirstAux] at h
    split_ifs at h with hx
    · exact List.mem_cons_of_mem x (dedupFirstAux_subset seen xs y h)
    · rcases List.mem_cons.mp h with rfl | h'
      · exact List.mem_cons_self _ _
      · exact List.mem_cons_of_mem x (dedupFirstAux_subset _ xs y h')

theorem dedupFirst_subset {α : Type} [DecidableEq α] {l : List α} {y : α}
    (h : y ∈ dedupFirst l) : y ∈ l :=
  dedupFirstAux_subset [] l y h

theorem pickBestDigits_mem (results : List (String × Option Char))
    (keys : List String) (minLen : ℕ) :
    ∀ lens : List ℕ, pickBestDigits results keys minLen lens = "" ∨
      pickBestDigits results keys minLen lens ∈ keys
  | [] => Or.inl rfl
  | l0 :: rest => by
    simp only [pickBestDigits]
    rcases hf : firstMaxBy (countVotes results)
        (keys.filter fun k => k.data.length = l0) with _ | top <;>
      simp only [hf]
    · exact pickBestDigits_mem results keys minLen rest
    · split_ifs with hc
      · exact Or.inr (List.mem_of_mem_filter (firstMaxBy_mem _ hf))
      · exact pickBestDigits_mem results keys minLen rest

theorem voteKeys_notBad (results : List (String × Option Char))
    (hres : ∀ r ∈ results, GoodResult r) :
    ∀ k ∈ voteKeys results, NotBad k.data := by
  intro k hk
  obtain ⟨r, hr, hrk⟩ := List.mem_map.mp (dedupFirst_subset hk)
  exact hrk ▸ (hres r hr).1

theorem voteDigits_notBad (results : List (String × Option Char))
    (hres : ∀ r ∈ results, GoodResult r) :
    NotBad (voteDigits results).data := by
  simp only [voteDigits]
  split_ifs with hbd
  · rcases hf : firstMaxBy (countVotes results) (voteKeys results)
        with _ | k
    · intro c hc
      cases hc
    · exact voteKeys_notBad results hres k (firstMaxBy_mem _ hf)
  · rcases pickBestDigits_mem results (voteKeys results) (voteMinLen results)
        (List.insertionSort (fun a b => a ≥ b) (voteLens results)) with h | h
    · exact absurd h hbd
    · exact voteKeys_notBad results hres _ h

theorem realOpsOf_allowed (results : List (String × Option Char))
    (bestDigits : String) (hres : ∀ r ∈ results, GoodResult r) :
    ∀ c ∈ realOpsOf results bestDigits, c ∈ allowedOps := by
  intro c hc
  obtain ⟨r, hr, hrc⟩ := List.mem_filterMap.mp hc
  rcases hr2 : r.2 with _ | c0 <;> rw [hr2] at hrc
  · have hrc2 : (none : Option Char) = some c := hrc
    cases hrc2
  · have hrc2 : (if r.1 = bestDigits ∧ c0 ≠ '?' then some c0 else none)
        = some c := hrc
    split_ifs at hrc2 with hcond
    injection hrc2 with hrc2
    subst hrc2
    exact (hres r hr).2 _ hr2

theorem voteResult_notBad (results : List (String × Option Char))
    (hres : ∀ r ∈ results, GoodResult r) :
    NotBad (voteResult results).data := by
  have hbd := voteDigits_notBad results hres
  have hops := realOpsOf_allowed results (voteDigits results) hres
  simp only [voteResult]
  rcases hro : realOpsOf results (voteDigits results) with _ | ⟨c1, cs1⟩ <;>
    simp only [hro]
  · split_ifs
    · rw [String.data_append]
      exact notBad_append hbd (by unfold NotBad; decide)
    · exact hbd
  · rw [String.data_append]
    refine notBad_append hbd ?_
    intro c hc
    have hc2 : c ∈ [(firstMaxBy (fun c => (c1 :: cs1).countP (· == c))
        (c1 :: cs1)).getD '?'] := hc
    rw [List.mem_singleton] at hc2
    subst hc2
    rw [hro] at hops
    rcases hf : firstMaxBy (fun c => (c1 :: cs1).countP (· == c)) (c1 :: cs1)
        with _ | y
    · decide
    · exact allowed_notBad (hops y (firstMaxBy_mem _ hf))

theorem runTesseract_notBad (texts : List (Option String)) :
    NotBad (runTesseract texts).data := by
  obtain ⟨hres, hraw⟩ := collectResults_good texts
  simp only [runTesseract]
  rcases hc : (collectResults texts).1 with _ | ⟨r0, rs⟩ <;> simp only [hc]
  · exact hraw
  · rw [hc] at hres
    exact voteResult_notBad _ hres

theorem applyZeroNine_notBad {s : String} (h : NotBad s.data) :
    NotBad (applyZeroNine s).data := by
  simp only [applyZeroNine]
  rcases hm : labelMatch s with _ | ⟨v, op⟩ <;> simp only [hm]
  · exact h
  · split_ifs with hv
    · obtain ⟨⟨v0, op0⟩, hm0, heq⟩ := Option.map_eq_some'.mp hm
      simp only [Prod.mk.injEq] at heq
      rw [String.data_append]
      refine notBad_append (by unfold NotBad; decide) ?_
      rcases op with _ | c
      · intro c hc
        cases hc
      · intro d hd
        have hd2 : d ∈ [c] := hd
        rw [List.mem_singleton] at hd2
        subst hd2
        rw [heq.2] at hm0
        exact allowed_notBad (labelMatchL_op_good h hm0)
    · exact h

theorem ocrCropM_notBad (texts : List (Option String)) :
    NotBad (ocrCropM texts).data :=
  applyZeroNine_notBad (runTesseract_notBad texts)

theorem parseCageLabel_allowed {raw : String} (h : NotBad raw.data) :
    ∀ c, (parseCageLabel raw).2 = some c → c ∈ allowedOps := by
  intro c hc
  simp only [parseCageLabel] at hc
  split at hc
  · rename_i r hm
    obtain ⟨v, op⟩ := r
    have hc2 : op = some c := hc
    rw [hc2] at hm
    exact labelMatchL_op_good h hm
  · split at hc
    · have hc2 : (none : Option Char) = some c := hc
      cases hc2
    · rename_i c0 cs0 hraw
      split_ifs at hc with hd
      have hc2 : (match raw.data.dropWhile isDigitComma with
          | r :: _ => if r ∈ ['+', '-', 'x', '/', '?'] then some r else none
          | [] => none) = some c := hc
      split at hc2
      · split_ifs at hc2 with hin
        injection hc2 with hc2
        subst hc2
        simpa [allowedOps] using hin
      · cases hc2

theorem tryMargins_notBad (o : LabelOracle) (idx : ℕ) :
    ∀ (ks : List ℕ) (raw : String), NotBad raw.data →
      NotBad (tryMargins o idx ks raw).data
  | [], _, h => h
  | k :: ks, raw, h => by
    simp only [tryMargins]
    split
    · exact tryMargins_notBad o idx ks raw h
    · rename_i texts heq
      split_ifs
      · exact ocrCropM_notBad texts
      · exact tryMargins_notBad o idx ks raw h

theorem readLabelPhaseA_allowed (o : LabelOracle) (idx : ℕ) :
    OpAllowed (readLabelPhaseA o idx) := by
  intro c hc
  simp only [readLabelPhaseA] at hc
  split at hc
  · have hc2 : (none : Option Char) = some c := hc
    cases hc2
  · rename_i texts0 heq
    refine parseCageLabel_allowed ?_ c hc
    split_ifs
    · exact ocrCropM_notBad texts0
    · exact tryMargins_notBad o idx [2, 3, 4] _ (ocrCropM_notBad texts0)

theorem pass1Try_allowed (o : LabelOracle) (idx : ℕ) :
    ∀ (ms : List ℕ) (vop : String × Option Char), OpAllowed vop →
      OpAllowed (pass1Try o idx vop ms)
  | [], _, h => h
  | m :: ms, vop, h => by
    intro c hc
    simp only [pass1Try] at hc
    split at hc
    · exact pass1Try_allowed o idx ms vop h c hc
    · rename_i texts heq
      split at hc
      · rename_i r hm
        split_ifs at hc with h1 h2
        · exact pass1Try_allowed o idx ms vop h c hc
        · obtain ⟨v, rop⟩ := r
          rcases rop with _ | rc
          · exact h c hc
          · have hc2 : some rc = some c := hc
            injection hc2 with hc2
            subst hc2
            exact labelMatchL_op_good (ocrCropM_notBad texts) hm
        · exact pass1Try_allowed o idx ms vop h c hc
      · exact pass1Try_allowed o idx ms vop h c hc

theorem pass1Fix_allowed (o : LabelOracle) (idx : ℕ)
    (vop : String × Option Char) (h : OpAllowed vop) :
    OpAllowed (pass1Fix o idx vop) := by
  simp only [pass1Fix]
  split_ifs
  · exact h
  · exact pass1Try_allowed o idx [3, 4] vop h

theorem pass2Try_allowed (o : LabelOracle) (idx : ℕ)
    (vop : String × Option Char) :
    ∀ (l : List (ℕ × ℕ)) (new : String × Option Char),
      pass2Try o idx vop l = some new → OpAllowed new
  | [], _, h => by cases h
  | (sc, m) :: rest, new, h => by
    simp only [pass2Try] at h
    split at h
    · exact pass2Try_allowed o idx vop rest new h
    · rename_i texts heq
      split at h
      · rename_i r hm
        split at h
        · rename_i opc hop
          split_ifs at h with h1 h2
          · exact pass2Try_allowed o idx vop rest new h
          · injection h with h
            subst h
            intro c hc
            have hc2 : some opc = some c := hc
            injection hc2 with hc2
            subst hc2
            exact op_allowed_of_notBad ((labelMatchL_some hm).2 opc hop).1
              (ocrCropM_notBad texts opc ((labelMatchL_some hm).2 opc hop).2)
          · exact pass2Try_allowed o idx vop rest new h
        · exact pass2Try_allowed o idx vop rest new h
      · exact pass2Try_allowed o idx vop rest new h

theorem opVoteOf_allowed {t : Option String} {c : Char}
    (h : opVoteOf t = some c) : c ∈ allowedOps := by
  match t with
  | none => cases h
  | some t0 =>
    simp only [opVoteOf] at h
    split at h
    · split_ifs at h with hin
      injection h with h
      subst h
      simp only [List.mem_cons, List.not_mem_nil, or_false] at hin
      rcases hin with rfl | rfl | rfl | rfl <;> decide
    · cases h

theorem getD_plus_allowed {vs : List Char}
    (hvs : ∀ c ∈ vs, c ∈ allowedOps) (score : Char → ℕ) :
    (firstMaxBy score vs).getD '+' ∈ allowedOps := by
  rcases hfm : firstMaxBy score vs with _ | y
  · decide
  · exact hvs y (firstMaxBy_mem _ hfm)

theorem detectTrailingOperator_allowed {gate : Bool}
    {votes : List (Option String)} {a hf vf : Frac} {d : Char}
    (h : detectTrailingOperator gate votes a hf vf = some d) :
    d ∈ allowedOps := by
  have hvs : ∀ c ∈ votes.filterMap opVoteOf, c ∈ allowedOps := by
    intro c hc
    obtain ⟨t, -, ht⟩ := List.mem_filterMap.mp hc
    exact opVoteOf_allowed ht
  simp only [detectTrailingOperator] at h
  split_ifs at h with hg h1 h2 h3 <;> split at h <;>
    first
      | (injection h with h; subst h; decide)
      | (injection h with h; subst h; exact getD_plus_allowed hvs _)
      | cases h

theorem pass2Fix_allowed (o : LabelOracle) (idx : ℕ) (cells : List Cell)
    (vop : String × Option Char) (h : OpAllowed vop) :
    OpAllowed (pass2Fix o idx cells vop) := by
  intro c hc
  simp only [pass2Fix] at hc
  split_ifs at hc with h1 h2 h3
  · exact h c hc
  · have hc2 : some '+' = some c := hc
    injection hc2 with hc2
    subst hc2
    decide
  · split at hc
    · rename_i new hnew
      exact pass2Try_allowed o idx vop _ new hnew c hc
    · split at hc
      · rename_i dd hdd
        have hc2 : some dd = some c := hc
        injection hc2 with hc2
        subst hc2
        exact detectTrailingOperator_allowed hdd
      · exact h c hc
  · split at hc
    · rename_i new hnew
      exact pass2Try_allowed o idx vop _ new hnew c hc
    · exact h c hc

theorem mapIdx_mem {α β : Type} {f : ℕ → α → β} {l : List α} {b : β}
    (h : b ∈ l.mapIdx f) : ∃ i a, a ∈ l ∧ b = f i a := by
  rw [List.mapIdx_eq_enum_map] at h
  obtain ⟨⟨i, a⟩, hp, hfb⟩ := List.mem_map.mp h
  obtain ⟨hi, ha⟩ := List.mem_enum hp
  refine ⟨i, a, ?_, hfb.symm⟩
  rw [ha]
  exact List.getElem_mem hi

theorem readCageLabelsCore_allowed (o : LabelOracle)
    (cages : List (List Cell)) :
    ∀ vop ∈ readCageLabelsCore o cages, OpAllowed vop := by
  have hA : ∀ v ∈ (List.range cages.length).map (readLabelPhaseA o),
      OpAllowed v := by
    intro v hv
    obtain ⟨i, -, hi⟩ := List.mem_map.mp hv
    exact hi ▸ readLabelPhaseA_allowed o i
  have hB : ∀ v ∈ ((List.range cages.length).map (readLabelPhaseA o)).mapIdx
      (fun idx vop => pass1Fix o idx vop), OpAllowed v := by
    intro v hv
    obtain ⟨i, a, ha, hb⟩ := mapIdx_mem hv
    exact hb ▸ pass1Fix_allowed o i a (hA a ha)
  intro vop hvop
  simp only [readCageLabelsCore] at hvop
  split_ifs at hvop <;>
    first
      | exact hA vop hvop
      | exact hB vop hvop
      | (obtain ⟨i, rc, hrc, hb⟩ := mapIdx_mem hvop
         obtain ⟨x, y⟩ := rc
         exact hb ▸ pass2Fix_allowed o i y x (hA x (List.of_mem_zip hrc).1))
      | (obtain ⟨i, rc, hrc, hb⟩ := mapIdx_mem hvop
         obtain ⟨x, y⟩ := rc
         exact hb ▸ pass2Fix_allowed o i y x (hB x (List.of_mem_zip hrc).1))

/-- **C6.**  Every operator attached to a cage in the emitted document —
over all operator-producing paths (multi-config voting and salvage, the
`?` fallback, the digit-to-plus correction, the high-resolution retries,
and the rightmost-component operator detection) — is one of the five
characters `+ - x / ?`; the raw glyphs `× ÷ −` never appear. -/
theorem emitted_ops_allowed (tess : Bool) (o : LabelOracle) (n : ℕ)
    (cages : List (List Cell)) (labels : List (String × Option Char))
    (h : readCageLabelsE tess o cages = .ok labels) :
    ∀ e ∈ (buildResult n cages labels).cages, ∀ c, e.op = some c →
      c ∈ allowedOps := by
  have hlab : ∀ vop ∈ labels, OpAllowed vop := by
    cases tess with
    | false => simp [readCageLabelsE] at h
    | true =>
      simp only [readCageLabelsE, if_true] at h
      injection h with h
      exact h ▸ readCageLabelsCore_allowed o cages
  intro e he c hc
  simp only [buildResult] at he
  obtain ⟨cl, hcl, hce⟩ := List.mem_map.mp he
  obtain ⟨g, vop⟩ := cl
  have hvop : vop ∈ labels := (List.of_mem_zip hcl).2
  have hop : e.op = vop.2 := by rw [← hce]
  rw [hop] at hc
  exact hlab vop hvop c hc

/-- A label oracle on which every crop is degenerate. -/
def oracleTrivial : LabelOracle where
  smallCells := false
  init := fun _ => none
  mretry := fun _ _ => none
  p1 := fun _ _ => none
  p2 := fun _ _ _ => none
  opCropOk := fun _ => false
  opGate := fun _ => false
  opVotes := fun _ => []
  opAspect := fun _ => Frac.ofInt 0
  opHFill := fun _ => Frac.ofInt 0
  opVFill := fun _ => Frac.ofInt 0

/-- Witness for C6 on a one-cage puzzle read through `oracleTrivial`. -/
theorem emitted_ops_allowed_witness :
    ((buildResult 1 [[((0 : ℕ), (0 : ℕ))]]
        [("?", (none : Option Char))]).cages.all
      fun e => match e.op with
        | some c => decide (c ∈ allowedOps)
        | none => true) = true := by
  rw [List.all_eq_true]
  intro e he
  rcases hop : e.op with _ | c
  · rfl
  · exact decide_eq_true
      (emitted_ops_allowed true oracleTrivial 1 [[(0, 0)]] [("?", none)]
        rfl e he c hop)

/-! ### C3: where the engine check happens -/

/-- A concrete image oracle: the image loads and a grid is found. -/
def ioC3 : ImageOracle where
  imageOk := true
  gridBbox := some ⟨0, 0, 400, 400⟩
  lineCands := ([], [])
  hThick := fun _ => true
  vThick := fun _ => true
  label := oracleTrivial

/-- **C3 counterexample.**  With the OCR engine absent, the tool still runs
grid localization, lattice detection, size selection, border
classification and cage grouping on the image before it reports the
missing engine: the check `_require_tesseract` is the first statement of
`_read_cage_labels` (line 727), which only runs after those five stages,
not before any image processing. -/
theorem require_tesseract_counterexample :
    ocrMathdokuTrace false ioC3 (some 4) =
      ([Stage.gridLocalization, Stage.latticeDetection, Stage.sizeSelection,
        Stage.borderClassification, Stage.cageGrouping],
        Except.error PipelineError.tesseractMissing) := by
  rfl

/-- **C3 (amended).**  When the image loads and a grid is found, a missing
OCR engine is reported as a fatal `tesseractMissing` failure after the
five image-processing stages and before any label reading. -/
theorem require_tesseract_spec (io : ImageOracle) (nOpt : Option ℕ)
    (b : GridBBox) (h1 : io.imageOk = true) (h2 : io.gridBbox = some b) :
    ocrMathdokuTrace false io nOpt =
      ([Stage.gridLocalization, Stage.latticeDetection, Stage.sizeSelection,
        Stage.borderClassification, Stage.cageGrouping],
        Except.error PipelineError.tesseractMissing) := by
  simp [ocrMathdokuTrace, h1, h2]

/-- Witness for the amended C3. -/
theorem require_tesseract_spec_witness :
    ioC3.imageOk = true ∧ ioC3.gridBbox = some ⟨0, 0, 400, 400⟩ ∧
      ocrMathdokuTrace false ioC3 none =
        ([Stage.gridLocalization, Stage.latticeDetection,
          Stage.sizeSelection, Stage.borderClassification,
          Stage.cageGrouping],
          Except.error PipelineError.tesseractMissing) :=
  ⟨rfl, rfl, require_tesseract_spec ioC3 none ⟨0, 0, 400, 400⟩ rfl rfl⟩

end MathdokuOCR
